import Mathlib

/-!
Verification of the version-string comparison library (`verstr_compare.py`).

The embedding works over `List Char` (a Python `str` is a sequence of unicode
code points, compared code-point-wise, which is exactly `Char` comparison).
The three source components are embedded as:

* `Verstr.compare`          — the single-pass three-way comparator `compare`;
* `Verstr.sortableInteger`  — the self-delimiting integer encoder `_sortable_integer`
                              (in its default `_integer=True`, `_sep=""` mode);
* `Verstr.sortkey`          — the sort-key generator `sortkey`.

The source's `while` loops become recursions on an explicit loop variant
(`fuel`); every public wrapper passes a variant that provably suffices
(`compareLoop_irrel` etc. show the result is independent of any sufficiently
large variant), so the definitions are total and executable by `decide`.
-/

namespace Verstr

/-- Result type of the comparator, mirroring `CompareResult` in the source:
`LEFT` (= 1) means the left argument sorts after the right, `RIGHT` (= -1)
means it sorts before, `EQUAL` (= 0) means neither. -/
inductive CompareResult : Type where
  | LEFT : CompareResult
  | EQUAL : CompareResult
  | RIGHT : CompareResult
deriving DecidableEq, Repr

/-- Integer value of a comparison result, as in the source `IntEnum`. -/
def CompareResult.toInt : CompareResult → Int
  | .LEFT => 1
  | .EQUAL => 0
  | .RIGHT => -1

/-- Swapping the two compared operands inverts the result. -/
def CompareResult.inv : CompareResult → CompareResult
  | .LEFT => .RIGHT
  | .EQUAL => .EQUAL
  | .RIGHT => .LEFT

/-- The three values of the `total_order` parameter of `compare`:
`off` is Python `False`, `deferred` is Python `True`, and `elementwise`
is the sentinel `LEFTMOST_TOTAL_ORDER`. -/
inductive TotalOrderMode : Type where
  | off : TotalOrderMode
  | deferred : TotalOrderMode
  | elementwise : TotalOrderMode
deriving DecidableEq, Repr

/-- The `total_order` flag values accepted by both `compare` and `sortkey`:
`false` is the default mode, `true` the deferred total-order mode. -/
def modeOfFlag (t : Bool) : TotalOrderMode :=
  if t then .deferred else .off

/-- The source's digit test `_isdigit = lambda s: (s >= '0' and s <= '9')`. -/
def isDig (c : Char) : Bool :=
  decide ('0' ≤ c ∧ c ≤ '9')

/-- Numeric value of a decimal digit character. -/
def dval (c : Char) : Nat :=
  c.toNat - 48

/-- Whether a string consists of decimal digits only. -/
def allDig (s : List Char) : Bool :=
  s.all isDig

/-- First phase of the digit-run comparison in `compare`: consume leading
zeros common to both operands (the loop at lines 133-137 of the source). -/
def dropBothZeros : List Char → List Char → List Char × List Char
  | a :: as, b :: bs =>
      if a = '0' ∧ b = '0' then dropBothZeros as bs else (a :: as, b :: bs)
  | a, b => (a, b)

/-- Third phase of the digit-run comparison in `compare`: advance through
digits present on both sides, remembering the first position where the digit
characters differ (the loop at lines 155-162 of the source).  Returns the
remembered signal and the two remainders. -/
def scanDigits (d : CompareResult) :
    List Char → List Char → CompareResult × List Char × List Char
  | a :: as, b :: bs =>
      if isDig a ∧ isDig b then
        scanDigits
          (if d = .EQUAL ∧ a ≠ b then (if b < a then .LEFT else .RIGHT) else d)
          as bs
      else (d, a :: as, b :: bs)
  | a, b => (d, a, b)

/-- Whether a string starts with a decimal digit (`lp < llen and _isdigit(l[lp])`). -/
def startsDig : List Char → Bool
  | c :: _ => isDig c
  | [] => false

/-- One whole digit-run comparison of `compare` (source lines 128-185), given
both cursors on digit characters: common zeros, one-sided zeros (producing the
zero-padding signal), left-aligned digit scan, then the run-length and
digit-difference checks.  `Sum.inl` is an immediate result of the whole
comparison; `Sum.inr (zeros, l3, r3)` means the runs were numerically equal
and the main loop continues at `(l3, r3)` with zero-padding signal `zeros`. -/
def digitRunStep (l r : List Char) :
    Sum CompareResult (CompareResult × List Char × List Char) :=
  let p := dropBothZeros l r
  let zeros1 : CompareResult := if p.1.head? = some '0' then .RIGHT else .EQUAL
  let zeros : CompareResult := if p.2.head? = some '0' then .LEFT else zeros1
  let l2 := p.1.dropWhile (fun c => c = '0')
  let r2 := p.2.dropWhile (fun c => c = '0')
  let q := scanDigits .EQUAL l2 r2
  if startsDig q.2.1 then .inl .LEFT
  else if startsDig q.2.2 then .inl .RIGHT
  else if q.1 ≠ .EQUAL then .inl q.1
  else .inr (zeros, q.2.1, q.2.2)

/-- The digit-run comparison together with the source's runtime assertion
`assert zeros != CompareResult.RIGHT` (line 144): the assertion is checked
whenever the right-side zero-consuming loop executes at least one iteration,
i.e. when the right remainder still starts with `'0'` after the common-zeros
phase; `none` models an `AssertionError`. -/
def digitRunStepChk (l r : List Char) :
    Option (Sum CompareResult (CompareResult × List Char × List Char)) :=
  let p := dropBothZeros l r
  if p.2.head? = some '0' ∧ p.1.head? = some '0' then none
  else some (digitRunStep l r)

/-- Main loop of `compare` (source lines 116-193).  `fuel` is the loop
variant: any value exceeding `l.length + r.length` gives the loop's true
result (see `compareLoop_irrel`).  `gz` is the accumulator `global_zeros`. -/
def compareLoop : Nat → TotalOrderMode → CompareResult →
    List Char → List Char → CompareResult
  | 0, _, _, _, _ => .EQUAL
  | _ + 1, m, gz, [], [] => if m = .off then .EQUAL else gz
  | _ + 1, _, _, [], _ :: _ => .RIGHT
  | _ + 1, _, _, _ :: _, [] => .LEFT
  | f + 1, m, gz, lc :: ls, rc :: rs =>
      if isDig lc ∧ isDig rc then
        match digitRunStep (lc :: ls) (rc :: rs) with
        | .inl res => res
        | .inr (z, l3, r3) =>
            if z ≠ .EQUAL ∧ m = .elementwise then z
            else compareLoop f m (if gz = .EQUAL then z else gz) l3 r3
      else
        if rc < lc then .LEFT
        else if lc < rc then .RIGHT
        else compareLoop f m gz ls rs

/-- The comparator `compare(l, r, total_order)` of the source. -/
def compare (l r : List Char) (m : TotalOrderMode) : CompareResult :=
  compareLoop (l.length + r.length + 1) m .EQUAL l r

/-- Decimal representation of a natural number as digit characters
(`str(n)` in the source), via the variant-carrying helper `natReprAux`. -/
def natReprAux : Nat → Nat → List Char
  | 0, _ => []
  | f + 1, n =>
      if n < 10 then [Nat.digitChar n]
      else natReprAux f (n / 10) ++ [Nat.digitChar (n % 10)]

/-- Decimal representation of a natural number (`str(n)`). -/
def natRepr (n : Nat) : List Char :=
  natReprAux (n + 1) n

/-- The 9's-complement digit translation `__neg_transtable` of the source:
each decimal digit `d` becomes `9 - d`, every other character is unchanged. -/
def compl9 (c : Char) : Char :=
  if isDig c then Nat.digitChar (9 - dval c) else c

/-- Core of `_sortable_integer` after sign handling (source lines 318-330),
in the default `_integer=True`, `_sep=""` mode: strip leading zeros, return
`"00"` for an empty or all-zero magnitude, prepend the digit count `l - 1`
for up to 9 digits, otherwise prepend `'9'` and the recursive encoding of
`l - 10`.  `fuel` is the recursion variant; any value exceeding the input
length suffices (see `sortableIntegerCore_irrel`). -/
def sortableIntegerCore : Nat → List Char → List Char
  | 0, _ => []
  | f + 1, s =>
      let t := s.dropWhile (fun c => c = '0')
      if t = [] then ['0', '0']
      else if t.length ≤ 9 then Nat.digitChar (t.length - 1) :: t
      else '9' :: sortableIntegerCore f (natRepr (t.length - 10)) ++ t

/-- The unsigned path of `_sortable_integer` on a digit string. -/
def sortableIntegerAux (s : List Char) : List Char :=
  sortableIntegerCore (s.length + 1) s

/-- The integer encoder `_sortable_integer(s)` of the source in its default
mode: empty input encodes to `"00"`; a leading `'-'` selects the negative
path, which strips the sign, returns `"00"` for an all-zero magnitude, and
otherwise prefixes `'-'` and applies the 9's-complement translation to the
encoding of the magnitude. -/
def sortableInteger (s : List Char) : List Char :=
  match s with
  | [] => ['0', '0']
  | c :: t =>
      if c = '-' then
        if t = [] then ['0', '0']
        else if t.dropWhile (fun c => c = '0') = [] then ['0', '0']
        else '-' :: (sortableIntegerAux t).map compl9
      else sortableIntegerAux (c :: t)

/-- Encoding of the canonical decimal representation of a natural number;
`sortableIntegerAux s = encNat (valBE s)` for every digit string `s`. -/
def encNat (n : Nat) : List Char :=
  sortableIntegerAux (natRepr n)

/-- Scanning loop of `sortkey` (source lines 354-372): alternately collect a
maximal non-digit part (copied verbatim), count-and-strip the leading zeros
of the following digit run (collecting the count), and encode the remaining
digits with the integer encoder.  Returns the key body `o` and the list of
leading-zero counts (the source stores the marker `-(count + 1)`; we store
`count` and apply the marker transformation in `markerEnc`).  `fuel` is the
loop variant (see `sortkeyScanCore_irrel`). -/
def sortkeyScanCore : Nat → List Char → List Char × List Nat
  | 0, _ => ([], [])
  | f + 1, s =>
      let txt := s.takeWhile (fun c => !isDig c)
      let rest := s.dropWhile (fun c => !isDig c)
      if rest = [] then (txt, [])
      else
        let zs := rest.takeWhile (fun c => c = '0')
        let rest2 := rest.dropWhile (fun c => c = '0')
        let ds := rest2.takeWhile isDig
        let rest3 := rest2.dropWhile isDig
        let q := sortkeyScanCore f rest3
        (txt ++ sortableInteger ds ++ q.1, zs.length :: q.2)

/-- The scanning loop of `sortkey` with a sufficient variant. -/
def sortkeyScan (s : List Char) : List Char × List Nat :=
  sortkeyScanCore (s.length + 1) s

/-- The default-mode sort key: the body `o` produced by the scan. -/
def skey (s : List Char) : List Char :=
  (sortkeyScan s).1

/-- The leading-zero counts collected by the scan, in encounter order. -/
def zcounts (s : List Char) : List Nat :=
  (sortkeyScan s).2

/-- Encoding of one zero-padding marker in the total-order key suffix: the
source stores `-(count + 1)` in `zero_o` and later encodes it with
`_sortable_integer(str(-(count + 1)))`, i.e. the encoder applied to
`'-'` followed by the decimal digits of `count + 1`. -/
def markerEnc (n : Nat) : List Char :=
  sortableInteger ('-' :: natRepr (n + 1))

/-- The escaping `o.replace("\0", "\0~")` applied to the key body before the
total-order suffix is appended: every NUL character becomes NUL `'~'`. -/
def escapeNul (s : List Char) : List Char :=
  s.flatMap (fun c => if c = '\x00' then ['\x00', '~'] else [c])

/-- The key generator `sortkey(s, total_order)` of the source: the key body,
and — when `total_order` is requested — the NUL-escaped body followed by a
NUL separator and the concatenated encodings of all zero-padding markers. -/
def sortkey (s : List Char) (total : Bool) : List Char :=
  let q := sortkeyScan s
  if total then
    escapeNul q.1 ++ '\x00' :: (q.2.map markerEnc).flatten
  else q.1

/-- Three-way lexicographic (code-point-wise) comparison of two strings,
with the comparator's orientation: `LEFT` iff the first argument is
lexicographically greater, `RIGHT` iff smaller, `EQUAL` iff equal.  This is
Python's `<`/`==`/`>` on `str` values. -/
def strCmp : List Char → List Char → CompareResult
  | [], [] => .EQUAL
  | [], _ :: _ => .RIGHT
  | _ :: _, [] => .LEFT
  | a :: as, b :: bs =>
      if a < b then .RIGHT
      else if b < a then .LEFT
      else strCmp as bs

/-- Strict lexicographic order on strings (`x < y` on Python `str`). -/
def lexLt (x y : List Char) : Prop :=
  strCmp x y = .RIGHT

/-- Numeric value of a big-endian decimal digit string. -/
def valBE : List Char → Nat
  | [] => 0
  | c :: t => dval c * 10 ^ t.length + valBE t

/-- Syntactic validity of an input to the integer encoder in its default
mode: a string of decimal digits, optionally preceded by a `'-'` sign
(the digit part may be empty; an empty or all-zero digit part denotes zero). -/
def validInt (s : List Char) : Bool :=
  match s with
  | [] => true
  | c :: t => if c = '-' then allDig t else allDig (c :: t)

/-- The integer denoted by a syntactically valid encoder input. -/
def intVal (s : List Char) : Int :=
  match s with
  | [] => 0
  | c :: t => if c = '-' then -(valBE t : Int) else (valBE (c :: t) : Int)

/-- Two strings differ at a first position present in both, with the first
string carrying the smaller character.  This is lexicographic `<` excluding
the strict-prefix case; it is stable under appending arbitrary suffixes. -/
def FirstDiffLt (x y : List Char) : Prop :=
  ∃ p c d x₁ y₁, x = p ++ c :: x₁ ∧ y = p ++ d :: y₁ ∧ c < d

/-- Zero-padding signal of one digit-run comparison, from the two
leading-zero counts: the side with strictly more padding zeros sorts
smaller. -/
def sigOf (a b : Nat) : CompareResult :=
  if b < a then .RIGHT else if a < b then .LEFT else .EQUAL

/-- First non-`EQUAL` zero-padding signal of two aligned zero-count lists. -/
def firstSig : List Nat → List Nat → CompareResult
  | a :: as, b :: bs => if sigOf a b ≠ .EQUAL then sigOf a b else firstSig as bs
  | _, _ => .EQUAL

/-- Normalization of a string that strips the zero padding of every maximal
digit run, keeping the canonical representative `"0"` for an all-zero run
(so that each run is replaced by the canonical decimal representation of its
magnitude).  Modelled from the spec: two strings are "equal magnitudes,
differing only in zero padding" iff their normalizations coincide.
`fuel` is the loop variant (see `normRunsCore_irrel`). -/
def normRunsCore : Nat → List Char → List Char
  | 0, _ => []
  | f + 1, s =>
      let txt := s.takeWhile (fun c => !isDig c)
      let rest := s.dropWhile (fun c => !isDig c)
      if rest = [] then txt
      else
        let run := rest.takeWhile isDig
        let rest2 := rest.dropWhile isDig
        let ds := run.dropWhile (fun c => c = '0')
        txt ++ (if ds = [] then ['0'] else ds) ++ normRunsCore f rest2

/-- Per-run zero-padding normalization with a sufficient variant. -/
def normRuns (s : List Char) : List Char :=
  normRunsCore (s.length + 1) s

/-- Leading-zero prefix of a string (the zero padding of its first digit run). -/
def zPart (s : List Char) : List Char :=
  s.takeWhile (fun c => c = '0')

/-- Magnitude digits of the first digit run: what remains of the run after
stripping the leading zeros. -/
def dPart (s : List Char) : List Char :=
  (s.dropWhile (fun c => c = '0')).takeWhile isDig

/-- Remainder of a string after its first digit run. -/
def restPart (s : List Char) : List Char :=
  (s.dropWhile (fun c => c = '0')).dropWhile isDig

end Verstr

namespace Verstr

/-! ### Character and digit basics -/

theorem char_lt_iff (c d : Char) : c < d ↔ c.toNat < d.toNat :=
  ⟨fun h => h, fun h => h⟩

theorem char_le_iff (c d : Char) : c ≤ d ↔ c.toNat ≤ d.toNat :=
  ⟨fun h => h, fun h => h⟩

theorem char_eq_iff (c d : Char) : c = d ↔ c.toNat = d.toNat := by
  constructor
  · intro h; rw [h]
  · intro h; rw [← Char.ofNat_toNat c, ← Char.ofNat_toNat d, h]

theorem isDig_iff (c : Char) : isDig c = true ↔ 48 ≤ c.toNat ∧ c.toNat ≤ 57 := by
  simp only [isDig, decide_eq_true_eq, char_le_iff]
  exact Iff.rfl

theorem nul_lt_of_ne (c : Char) (h : c ≠ '\x00') : '\x00' < c := by
  rw [char_lt_iff]
  show 0 < c.toNat
  rcases Nat.eq_zero_or_pos c.toNat with h0 | h0
  · exact absurd ((char_eq_iff c '\x00').2 h0) h
  · exact h0

theorem digitChar_toNat : ∀ d, d < 10 → (Nat.digitChar d).toNat = 48 + d := by
  decide

theorem isDig_digitChar : ∀ d, d < 10 → isDig (Nat.digitChar d) = true := by
  decide

theorem dval_lt_ten (c : Char) (h : isDig c = true) : dval c < 10 := by
  have := (isDig_iff c).1 h
  unfold dval
  omega

theorem digitChar_dval (c : Char) (h : isDig c = true) : Nat.digitChar (dval c) = c := by
  have hr := (isDig_iff c).1 h
  rw [char_eq_iff, digitChar_toNat (dval c) (dval_lt_ten c h)]
  unfold dval
  omega

theorem digit_lt_iff (c d : Char) (hc : isDig c = true) (hd : isDig d = true) :
    c < d ↔ dval c < dval d := by
  have h1 := (isDig_iff c).1 hc
  have h2 := (isDig_iff d).1 hd
  rw [char_lt_iff]
  unfold dval
  omega

theorem digit_eq_iff (c d : Char) (hc : isDig c = true) (hd : isDig d = true) :
    c = d ↔ dval c = dval d := by
  have h1 := (isDig_iff c).1 hc
  have h2 := (isDig_iff d).1 hd
  rw [char_eq_iff]
  unfold dval
  omega

theorem not_isDig_nul : isDig '\x00' = false := by decide

/-! ### Basic facts about `CompareResult.inv` -/

@[simp] theorem inv_LEFT : CompareResult.LEFT.inv = .RIGHT := rfl

@[simp] theorem inv_EQUAL : CompareResult.EQUAL.inv = .EQUAL := rfl

@[simp] theorem inv_RIGHT : CompareResult.RIGHT.inv = .LEFT := rfl

@[simp] theorem inv_inv (x : CompareResult) : x.inv.inv = x := by
  cases x <;> rfl

@[simp] theorem inv_eq_EQUAL_iff (x : CompareResult) : x.inv = .EQUAL ↔ x = .EQUAL := by
  cases x <;> simp [CompareResult.inv]

/-! ### Lexicographic three-way comparison -/

@[simp] theorem strCmp_nil_nil : strCmp [] [] = .EQUAL := rfl

@[simp] theorem strCmp_nil_cons (b : Char) (bs : List Char) :
    strCmp [] (b :: bs) = .RIGHT := rfl

@[simp] theorem strCmp_cons_nil (a : Char) (as : List Char) :
    strCmp (a :: as) [] = .LEFT := rfl

theorem strCmp_cons_cons (a b : Char) (as bs : List Char) :
    strCmp (a :: as) (b :: bs) =
      if a < b then .RIGHT else if b < a then .LEFT else strCmp as bs := rfl

@[simp] theorem strCmp_cons_self (a : Char) (as bs : List Char) :
    strCmp (a :: as) (a :: bs) = strCmp as bs := by
  rw [strCmp_cons_cons]
  simp

theorem strCmp_eq_EQUAL_iff (x y : List Char) : strCmp x y = .EQUAL ↔ x = y := by
  induction x generalizing y with
  | nil => cases y <;> simp
  | cons a as ih =>
      cases y with
      | nil => simp
      | cons b bs =>
          rw [strCmp_cons_cons]
          rcases lt_trichotomy a b with h | h | h
          · simp only [h, if_pos]
            simp only [reduceCtorEq, false_iff, List.cons.injEq, not_and]
            intro hab
            exact absurd hab (ne_of_lt h)
          · subst h
            simp [lt_irrefl, ih]
          · simp only [if_neg (lt_asymm h), if_pos h]
            simp only [reduceCtorEq, false_iff, List.cons.injEq, not_and]
            intro hab
            exact absurd hab (ne_of_gt h)

theorem strCmp_swap (x y : List Char) : strCmp y x = (strCmp x y).inv := by
  induction x generalizing y with
  | nil => cases y <;> simp
  | cons a as ih =>
      cases y with
      | nil => simp
      | cons b bs =>
          rw [strCmp_cons_cons, strCmp_cons_cons]
          rcases lt_trichotomy a b with h | h | h
          · simp [h, lt_asymm h]
          · subst h
            simp [lt_irrefl, ih]
          · simp [h, lt_asymm h]

theorem strCmp_append_cancel (p x y : List Char) :
    strCmp (p ++ x) (p ++ y) = strCmp x y := by
  induction p with
  | nil => rfl
  | cons a as ih => simpa using ih

theorem firstDiffLt_strCmp {x y : List Char} (h : FirstDiffLt x y) (u v : List Char) :
    strCmp (x ++ u) (y ++ v) = .RIGHT := by
  obtain ⟨p, c, d, x₁, y₁, hx, hy, hcd⟩ := h
  subst hx hy
  rw [List.append_assoc, List.append_assoc, strCmp_append_cancel]
  simp [strCmp_cons_cons, hcd]

theorem firstDiffLt_self_append {x y : List Char} (h : FirstDiffLt x y) :
    strCmp x y = .RIGHT := by
  have := firstDiffLt_strCmp h [] []
  simpa using this

theorem FirstDiffLt.cons (c : Char) {x y : List Char} (h : FirstDiffLt x y) :
    FirstDiffLt (c :: x) (c :: y) := by
  obtain ⟨p, a, b, x₁, y₁, hx, hy, hab⟩ := h
  exact ⟨c :: p, a, b, x₁, y₁, by simp [hx], by simp [hy], hab⟩

theorem FirstDiffLt.append_left (p : List Char) {x y : List Char} (h : FirstDiffLt x y) :
    FirstDiffLt (p ++ x) (p ++ y) := by
  induction p with
  | nil => simpa using h
  | cons a as ih => exact ih.cons a

theorem FirstDiffLt.append_right {x y : List Char} (u v : List Char) (h : FirstDiffLt x y) :
    FirstDiffLt (x ++ u) (y ++ v) := by
  obtain ⟨p, a, b, x₁, y₁, hx, hy, hab⟩ := h
  exact ⟨p, a, b, x₁ ++ u, y₁ ++ v, by simp [hx], by simp [hy], hab⟩

theorem firstDiffLt_of_head (c d : Char) (x y : List Char) (h : c < d) :
    FirstDiffLt (c :: x) (d :: y) :=
  ⟨[], c, d, x, y, rfl, rfl, h⟩

end Verstr

namespace Verstr

/-! ### Values of digit strings -/

theorem dval_digitChar : ∀ d, d < 10 → dval (Nat.digitChar d) = d := by
  decide

theorem dval_zero : dval '0' = 0 := by decide

theorem dval_pos (c : Char) (hc : isDig c = true) (h : c ≠ '0') : 0 < dval c := by
  have h1 := (isDig_iff c).1 hc
  have h2 : c.toNat ≠ 48 := by
    intro he
    exact h ((char_eq_iff c '0').2 (by simpa using he))
  unfold dval
  omega

theorem valBE_append (a b : List Char) :
    valBE (a ++ b) = valBE a * 10 ^ b.length + valBE b := by
  induction a with
  | nil => simp [valBE]
  | cons c as ih =>
      simp only [List.cons_append, valBE, ih, List.append_eq, List.length_append, pow_add]
      ring

theorem valBE_singleton (c : Char) : valBE [c] = dval c := by
  simp [valBE]

theorem valBE_lt (s : List Char) (h : allDig s = true) : valBE s < 10 ^ s.length := by
  induction s with
  | nil => simp [valBE]
  | cons c t ih =>
      simp only [allDig, List.all_cons, Bool.and_eq_true] at h
      have hc : dval c < 10 := dval_lt_ten c h.1
      have ht := ih (by simpa [allDig] using h.2)
      simp only [valBE, List.length_cons, pow_succ]
      nlinarith

theorem valBE_cons_ge (c : Char) (t : List Char) (h : 0 < dval c) :
    10 ^ t.length ≤ valBE (c :: t) := by
  simp only [valBE]
  have h1 : 1 * 10 ^ t.length ≤ dval c * 10 ^ t.length :=
    Nat.mul_le_mul_right _ (by omega)
  omega

/-! ### Decimal representation -/

theorem natReprAux_irrel : ∀ f₁ f₂ n, n < f₁ → n < f₂ →
    natReprAux f₁ n = natReprAux f₂ n := by
  intro f₁
  induction f₁ with
  | zero => intro f₂ n h; omega
  | succ f ih =>
      intro f₂ n h1 h2
      cases f₂ with
      | zero => omega
      | succ g =>
          simp only [natReprAux]
          by_cases h10 : n < 10
          · simp [h10]
          · have hn : 0 < n := by omega
            have hd : n / 10 < n := Nat.div_lt_self hn (by omega)
            simp only [h10, if_neg, if_false]
            rw [ih g (n / 10) (by omega) (by omega)]

theorem natRepr_eq (n : Nat) : natRepr n =
    if n < 10 then [Nat.digitChar n]
    else natRepr (n / 10) ++ [Nat.digitChar (n % 10)] := by
  unfold natRepr
  by_cases h10 : n < 10
  · simp [natReprAux, h10]
  · have hn : 0 < n := by omega
    have hd : n / 10 < n := Nat.div_lt_self hn (by omega)
    conv_lhs => rw [natReprAux]
    simp only [h10, if_neg, if_false]
    rw [natReprAux_irrel n (n / 10 + 1) (n / 10) (by omega) (by omega)]

theorem natRepr_ne_nil (n : Nat) : natRepr n ≠ [] := by
  rw [natRepr_eq]
  by_cases h10 : n < 10
  · simp [h10]
  · simp [h10]

theorem natRepr_all_digits (n : Nat) : allDig (natRepr n) = true := by
  induction n using Nat.strong_induction_on with
  | _ n ih =>
      rw [natRepr_eq]
      by_cases h10 : n < 10
      · simpa [h10, allDig] using isDig_digitChar n h10
      · have hn : 0 < n := by omega
        have hd : n / 10 < n := Nat.div_lt_self hn (by omega)
        have h1 := ih (n / 10) hd
        simp only [h10, if_false, allDig, List.all_append, List.all_cons, List.all_nil,
          Bool.and_eq_true] at h1 ⊢
        exact ⟨h1, isDig_digitChar (n % 10) (Nat.mod_lt n (by omega)), trivial⟩

theorem valBE_natRepr (n : Nat) : valBE (natRepr n) = n := by
  induction n using Nat.strong_induction_on with
  | _ n ih =>
      rw [natRepr_eq]
      by_cases h10 : n < 10
      · simp [h10, valBE_singleton, dval_digitChar n h10]
      · have hn : 0 < n := by omega
        have hd : n / 10 < n := Nat.div_lt_self hn (by omega)
        simp only [h10, if_false, valBE_append, ih (n / 10) hd, List.length_singleton,
          valBE_singleton, dval_digitChar (n % 10) (Nat.mod_lt n (by omega)), pow_one]
        omega

theorem natRepr_head_ne_zero (n : Nat) (h : n ≠ 0) : (natRepr n).head? ≠ some '0' := by
  induction n using Nat.strong_induction_on with
  | _ n ih =>
      rw [natRepr_eq]
      by_cases h10 : n < 10
      · have hnc : Nat.digitChar n ≠ '0' := by
          have hall : ∀ m, m < 10 → m ≠ 0 → Nat.digitChar m ≠ '0' := by decide
          exact hall n h10 h
        simp [h10, hnc]
      · simp only [h10, if_false]
        have hn : 0 < n := by omega
        have hd : n / 10 < n := Nat.div_lt_self hn (by omega)
        have hne : n / 10 ≠ 0 := by omega
        obtain ⟨c, t, hct⟩ := List.exists_cons_of_ne_nil (natRepr_ne_nil (n / 10))
        have hh := ih (n / 10) hd hne
        rw [hct] at hh ⊢
        simpa using hh

theorem natRepr_length_le (n : Nat) : (natRepr n).length ≤ n + 1 := by
  induction n using Nat.strong_induction_on with
  | _ n ih =>
      rw [natRepr_eq]
      by_cases h10 : n < 10
      · simp [h10]
      · have hn : 0 < n := by omega
        have hd : n / 10 < n := Nat.div_lt_self hn (by omega)
        have := ih (n / 10) hd
        simp only [h10, if_false, List.length_append, List.length_singleton]
        omega

theorem natRepr_lt_pow (n : Nat) : n < 10 ^ (natRepr n).length := by
  have h := valBE_lt (natRepr n) (natRepr_all_digits n)
  rwa [valBE_natRepr] at h

theorem pow_le_of_natRepr (n : Nat) (h : n ≠ 0) :
    10 ^ ((natRepr n).length - 1) ≤ n := by
  obtain ⟨c, t, hct⟩ := List.exists_cons_of_ne_nil (natRepr_ne_nil n)
  have hdig : isDig c = true := by
    have := natRepr_all_digits n
    rw [hct] at this
    simp only [allDig, List.all_cons, Bool.and_eq_true] at this
    exact this.1
  have hc0 : c ≠ '0' := by
    have := natRepr_head_ne_zero n h
    rw [hct] at this
    simpa using this
  have := valBE_cons_ge c t (dval_pos c hdig hc0)
  rw [← hct, valBE_natRepr] at this
  rw [hct]
  simpa using this

theorem natRepr_length_mono {m n : Nat} (h : m < n) :
    (natRepr m).length ≤ (natRepr n).length := by
  rcases Nat.eq_zero_or_pos m with rfl | hm
  · have h1 : 0 < (natRepr n).length := List.length_pos.2 (natRepr_ne_nil n)
    have h0 : (natRepr 0).length = 1 := by rw [natRepr_eq]; simp
    omega
  · by_contra hlen
    push_neg at hlen
    have h1 : (natRepr n).length ≤ (natRepr m).length - 1 := by omega
    have h2 : 10 ^ ((natRepr n).length) ≤ 10 ^ ((natRepr m).length - 1) :=
      Nat.pow_le_pow_right (by omega) h1
    have h3 := natRepr_lt_pow n
    have h4 := pow_le_of_natRepr m (by omega)
    omega

theorem natRepr_canonical (s : List Char) (hd : allDig s = true) (hne : s ≠ [])
    (hz : s.head? ≠ some '0') : natRepr (valBE s) = s := by
  induction s using List.reverseRecOn with
  | nil => exact absurd rfl hne
  | append_singleton u c ih =>
      have hdu : allDig u = true := by
        simp only [allDig, List.all_append, List.all_cons, List.all_nil,
          Bool.and_eq_true] at hd
        exact hd.1
      have hdc : isDig c = true := by
        simp only [allDig, List.all_append, List.all_cons, List.all_nil,
          Bool.and_eq_true] at hd
        exact hd.2.1
      rcases List.eq_nil_or_concat u with hu | ⟨L, b, hLb⟩
      · subst hu
        rw [valBE_append]
        simp only [List.nil_append, valBE, List.length_nil, pow_zero, List.length_cons]
        rw [natRepr_eq]
        simp [dval_lt_ten c hdc, digitChar_dval c hdc, valBE]
      · have hune : u ≠ [] := by
          rw [hLb]
          simp
        obtain ⟨c₀, t₀, hct⟩ := List.exists_cons_of_ne_nil hune
        have hz0 : u.head? ≠ some '0' := by
          rw [hct] at hz ⊢
          simpa using hz
        have hc₀dig : isDig c₀ = true := by
          rw [hct] at hdu
          simp only [allDig, List.all_cons, Bool.and_eq_true] at hdu
          exact hdu.1
        have hc₀0 : c₀ ≠ '0' := by
          rw [hct] at hz0
          simpa using hz0
        have hupos : 1 ≤ valBE u := by
          rw [hct]
          calc 1 ≤ 10 ^ t₀.length := Nat.one_le_pow _ _ (by omega)
          _ ≤ valBE (c₀ :: t₀) := valBE_cons_ge c₀ t₀ (dval_pos c₀ hc₀dig hc₀0)
        have hv : valBE (u ++ [c]) = valBE u * 10 + dval c := by
          rw [valBE_append]
          simp [valBE_singleton]
        have hc10 : dval c < 10 := dval_lt_ten c hdc
        rw [hv, natRepr_eq]
        have h10 : ¬ valBE u * 10 + dval c < 10 := by omega
        simp only [h10, if_false]
        have hdiv : (valBE u * 10 + dval c) / 10 = valBE u := by omega
        have hmod : (valBE u * 10 + dval c) % 10 = dval c := by omega
        rw [hdiv, hmod, ih hdu hune hz0, digitChar_dval c hdc]

theorem valBE_dropWhile_zero (s : List Char) :
    valBE (s.dropWhile (fun c => c = '0')) = valBE s := by
  induction s with
  | nil => rfl
  | cons c t ih =>
      by_cases h : c = '0'
      · subst h
        rw [List.dropWhile_cons_of_pos (by simp)]
        simp [ih, valBE, dval_zero]
      · rw [List.dropWhile_cons_of_neg (by simp [h])]

theorem head?_dropWhile_zero (s : List Char) :
    (s.dropWhile (fun c => c = '0')).head? ≠ some '0' := by
  induction s with
  | nil => simp
  | cons c t ih =>
      by_cases h : c = '0'
      · subst h
        rwa [List.dropWhile_cons_of_pos (by simp)]
      · rw [List.dropWhile_cons_of_neg (by simp [h])]
        simpa using h

theorem sameLen_val_firstDiff : ∀ x y : List Char, allDig x = true → allDig y = true →
    x.length = y.length → valBE x < valBE y → FirstDiffLt x y := by
  intro x
  induction x with
  | nil =>
      intro y _ _ hlen hval
      rw [List.length_nil] at hlen
      rw [List.eq_nil_of_length_eq_zero hlen.symm] at hval
      simp [valBE] at hval
  | cons a as ih =>
      intro y hx hy hlen hval
      cases y with
      | nil => simp at hlen
      | cons b bs =>
          simp only [allDig, List.all_cons, Bool.and_eq_true] at hx hy
          have hlen' : as.length = bs.length := by simpa using hlen
          by_cases hab : a = b
          · subst hab
            have : valBE as < valBE bs := by
              simp only [valBE, hlen'] at hval
              omega
            exact (ih bs (by simpa [allDig] using hx.2) (by simpa [allDig] using hy.2)
              hlen' this).cons a
          · have hda : dval a < dval b := by
              by_contra hge
              push_neg at hge
              have hne2 : dval a ≠ dval b := fun he => hab ((digit_eq_iff a b hx.1 hy.1).2 he)
              have hgt : dval b < dval a := by omega
              have hbs : valBE bs < 10 ^ bs.length :=
                valBE_lt bs (by simpa [allDig] using hy.2)
              have h1 : valBE (b :: bs) < (dval b + 1) * 10 ^ bs.length := by
                simp only [valBE]
                have he : (dval b + 1) * 10 ^ bs.length =
                    dval b * 10 ^ bs.length + 10 ^ bs.length := by ring
                omega
              have h2 : (dval b + 1) * 10 ^ bs.length ≤ dval a * 10 ^ as.length := by
                rw [hlen']
                exact Nat.mul_le_mul_right _ (by omega)
              have h3 : dval a * 10 ^ as.length ≤ valBE (a :: as) := by
                simp only [valBE]
                omega
              omega
            exact firstDiffLt_of_head a b as bs ((digit_lt_iff a b hx.1 hy.1).2 hda)

end Verstr

namespace Verstr

/-! ### The integer encoder: basic structure -/

theorem digitChar_lt_digitChar : ∀ a, a < 10 → ∀ b, b < 10 → a < b →
    Nat.digitChar a < Nat.digitChar b := by
  decide

theorem digitChar_lt_nine : ∀ d, d < 9 → Nat.digitChar d < '9' := by
  decide

theorem zero_lt_digitChar : ∀ d, d < 10 → 0 < d → '0' < Nat.digitChar d := by
  decide

theorem allDig_dropWhile (s : List Char) (q : Char → Bool) (h : allDig s = true) :
    allDig (s.dropWhile q) = true := by
  induction s with
  | nil => simp [allDig]
  | cons c t ih =>
      simp only [allDig, List.all_cons, Bool.and_eq_true] at h
      by_cases hq : q c
      · rw [List.dropWhile_cons_of_pos hq]
        exact ih h.2
      · rw [List.dropWhile_cons_of_neg (by simpa using hq)]
        simp [allDig, h.1, h.2]

theorem dropWhile_zero_idem (s : List Char) :
    (s.dropWhile (fun c => c = '0')).dropWhile (fun c => c = '0') =
      s.dropWhile (fun c => c = '0') := by
  cases hh : s.dropWhile (fun c => c = '0') with
  | nil => rfl
  | cons c t =>
      have := head?_dropWhile_zero s
      rw [hh] at this
      have hc : c ≠ '0' := by simpa using this
      rw [List.dropWhile_cons_of_neg (by simpa using hc)]

theorem sortableIntegerCore_irrel : ∀ f₁ f₂ s, s.length < f₁ → s.length < f₂ →
    sortableIntegerCore f₁ s = sortableIntegerCore f₂ s := by
  intro f₁
  induction f₁ with
  | zero => intro f₂ s h; omega
  | succ f ih =>
      intro f₂ s h1 h2
      cases f₂ with
      | zero => omega
      | succ g =>
          simp only [sortableIntegerCore]
          by_cases ht : s.dropWhile (fun c => c = '0') = []
          · simp [ht]
          · simp only [ht, if_false]
            by_cases h9 : (s.dropWhile (fun c => c = '0')).length ≤ 9
            · simp [h9]
            · simp only [h9, if_false]
              have hts : (s.dropWhile (fun c => c = '0')).length ≤ s.length :=
                (List.dropWhile_suffix _).length_le
              have hlen : (natRepr ((s.dropWhile (fun c => c = '0')).length - 10)).length
                  ≤ (s.dropWhile (fun c => c = '0')).length - 9 := by
                have := natRepr_length_le ((s.dropWhile (fun c => c = '0')).length - 10)
                omega
              rw [ih g (natRepr ((s.dropWhile (fun c => c = '0')).length - 10))
                (by omega) (by omega)]

theorem sortableIntegerAux_eq (s : List Char) : sortableIntegerAux s =
    if s.dropWhile (fun c => c = '0') = [] then ['0', '0']
    else if (s.dropWhile (fun c => c = '0')).length ≤ 9 then
      Nat.digitChar ((s.dropWhile (fun c => c = '0')).length - 1) ::
        s.dropWhile (fun c => c = '0')
    else '9' :: sortableIntegerAux (natRepr ((s.dropWhile (fun c => c = '0')).length - 10))
      ++ s.dropWhile (fun c => c = '0') := by
  unfold sortableIntegerAux
  conv_lhs => rw [sortableIntegerCore]
  by_cases ht : s.dropWhile (fun c => c = '0') = []
  · simp [ht]
  · simp only [ht, if_false]
    by_cases h9 : (s.dropWhile (fun c => c = '0')).length ≤ 9
    · simp [h9]
    · simp only [h9, if_false]
      have hts : (s.dropWhile (fun c => c = '0')).length ≤ s.length :=
        (List.dropWhile_suffix _).length_le
      have hlen : (natRepr ((s.dropWhile (fun c => c = '0')).length - 10)).length
          ≤ (s.dropWhile (fun c => c = '0')).length - 9 := by
        have := natRepr_length_le ((s.dropWhile (fun c => c = '0')).length - 10)
        omega
      rw [sortableIntegerCore_irrel s.length
        ((natRepr ((s.dropWhile (fun c => c = '0')).length - 10)).length + 1)
        (natRepr ((s.dropWhile (fun c => c = '0')).length - 10))
        (by omega) (by omega)]

theorem sortableIntegerAux_strip (s : List Char) :
    sortableIntegerAux s = sortableIntegerAux (s.dropWhile (fun c => c = '0')) := by
  rw [sortableIntegerAux_eq, sortableIntegerAux_eq (s.dropWhile (fun c => c = '0'))]
  rw [dropWhile_zero_idem]

theorem natRepr_strip_self (n : Nat) (h : n ≠ 0) :
    (natRepr n).dropWhile (fun c => c = '0') = natRepr n := by
  obtain ⟨c, t, hct⟩ := List.exists_cons_of_ne_nil (natRepr_ne_nil n)
  have hc : c ≠ '0' := by
    have := natRepr_head_ne_zero n h
    rw [hct] at this
    simpa using this
  rw [hct, List.dropWhile_cons_of_neg (by simpa using hc)]

theorem sortableIntegerAux_eq_encNat (s : List Char) (h : allDig s = true) :
    sortableIntegerAux s = encNat (valBE s) := by
  by_cases ht : s.dropWhile (fun c => c = '0') = []
  · have hv : valBE s = 0 := by
      rw [← valBE_dropWhile_zero, ht]
      rfl
    rw [hv, sortableIntegerAux_strip s, ht]
    rfl
  · have hv : valBE s = valBE (s.dropWhile (fun c => c = '0')) :=
      (valBE_dropWhile_zero s).symm
    have hcan : natRepr (valBE (s.dropWhile (fun c => c = '0'))) =
        s.dropWhile (fun c => c = '0') :=
      natRepr_canonical _ (allDig_dropWhile s _ h) ht (head?_dropWhile_zero s)
    rw [hv]
    unfold encNat
    rw [hcan, sortableIntegerAux_strip s]

theorem encNat_zero : encNat 0 = ['0', '0'] := by
  decide

theorem encNat_eq_of_pos (n : Nat) (h : n ≠ 0) : encNat n =
    if (natRepr n).length ≤ 9 then
      Nat.digitChar ((natRepr n).length - 1) :: natRepr n
    else '9' :: encNat ((natRepr n).length - 10) ++ natRepr n := by
  rw [encNat, sortableIntegerAux_eq, natRepr_strip_self n h]
  have hne : natRepr n ≠ [] := natRepr_ne_nil n
  simp only [hne, if_false]
  by_cases h9 : (natRepr n).length ≤ 9
  · simp [h9]
  · simp only [h9, if_false]
    rfl

theorem natRepr_length_le_self (n : Nat) (h : n ≠ 0) : (natRepr n).length ≤ n := by
  have h1 := pow_le_of_natRepr n h
  have h2 : (natRepr n).length - 1 < 10 ^ ((natRepr n).length - 1) :=
    Nat.lt_pow_self (by omega) _
  have h3 : 0 < (natRepr n).length := List.length_pos.2 (natRepr_ne_nil n)
  omega

theorem encNat_ne_nil (n : Nat) : encNat n ≠ [] := by
  rcases Nat.eq_zero_or_pos n with rfl | hn
  · rw [encNat_zero]
    simp
  · rw [encNat_eq_of_pos n (by omega)]
    by_cases h9 : (natRepr n).length ≤ 9 <;> simp [h9]

theorem encNat_all_digits (n : Nat) : allDig (encNat n) = true := by
  induction n using Nat.strong_induction_on with
  | _ n ih =>
      rcases Nat.eq_zero_or_pos n with rfl | hn
      · rw [encNat_zero]
        decide
      · rw [encNat_eq_of_pos n (by omega)]
        have hL : 0 < (natRepr n).length := List.length_pos.2 (natRepr_ne_nil n)
        by_cases h9 : (natRepr n).length ≤ 9
        · simp only [h9, if_true, allDig, List.all_cons, Bool.and_eq_true]
          refine ⟨isDig_digitChar _ (by omega), ?_⟩
          have := natRepr_all_digits n
          simpa [allDig] using this
        · have hLn : (natRepr n).length ≤ n := natRepr_length_le_self n (by omega)
          have h1 := ih ((natRepr n).length - 10) (by omega)
          have h2 := natRepr_all_digits n
          simp only [allDig] at h1 h2
          simp only [h9, if_false, allDig, List.cons_append, List.all_cons,
            List.all_append, Bool.and_eq_true, h1, h2, and_true]
          decide

theorem encNat_firstDiffLt : ∀ n, ∀ m, m < n → FirstDiffLt (encNat m) (encNat n) := by
  intro n
  induction n using Nat.strong_induction_on with
  | _ n ih =>
      intro m hmn
      have hn0 : n ≠ 0 := by omega
      have hLn : 0 < (natRepr n).length := List.length_pos.2 (natRepr_ne_nil n)
      rcases Nat.eq_zero_or_pos m with rfl | hm
      · -- `"00"` against the encoding of a positive number
        rw [encNat_zero, encNat_eq_of_pos n hn0]
        by_cases h9 : (natRepr n).length ≤ 9
        · simp only [h9, if_true]
          rcases Nat.lt_or_ge (natRepr n).length 2 with hL1 | hL2
          · -- single digit: `"00"` versus `'0' :: d`, difference at position 1
            have hL : (natRepr n).length = 1 := by omega
            obtain ⟨c, t, hct⟩ := List.exists_cons_of_ne_nil (natRepr_ne_nil n)
            have ht : t = [] := by
              rw [hct] at hL
              simpa using hL
            subst ht
            have hcd : isDig c = true := by
              have := natRepr_all_digits n
              rw [hct] at this
              simpa [allDig] using this
            have hc0 : c ≠ '0' := by
              have := natRepr_head_ne_zero n hn0
              rw [hct] at this
              simpa using this
            have hlt : '0' < c := by
              rw [digit_lt_iff '0' c (by decide) hcd, dval_zero]
              exact dval_pos c hcd hc0
            rw [hct]
            have h0 : Nat.digitChar ([c].length - 1) = '0' := rfl
            rw [h0]
            exact ⟨['0'], '0', c, [], [], rfl, rfl, hlt⟩
          · -- length class at least `'1'`, difference at position 0
            refine firstDiffLt_of_head _ _ _ _ ?_
            exact zero_lt_digitChar _ (by omega) (by omega)
        · simp only [h9, if_false]
          exact firstDiffLt_of_head _ _ _ _ (by decide)
      · -- both positive
        have hm0 : m ≠ 0 := by omega
        have hLm : 0 < (natRepr m).length := List.length_pos.2 (natRepr_ne_nil m)
        have hmono : (natRepr m).length ≤ (natRepr n).length := natRepr_length_mono hmn
        rw [encNat_eq_of_pos m hm0, encNat_eq_of_pos n hn0]
        rcases Nat.lt_or_ge ((natRepr m).length) ((natRepr n).length) with hlt | hge
        · -- strictly shorter representation
          by_cases h9n : (natRepr n).length ≤ 9
          · have h9m : (natRepr m).length ≤ 9 := by omega
            simp only [h9m, h9n, if_true]
            exact firstDiffLt_of_head _ _ _ _
              (digitChar_lt_digitChar _ (by omega) _ (by omega) (by omega))
          · simp only [h9n, if_false]
            by_cases h9m : (natRepr m).length ≤ 9
            · simp only [h9m, if_true]
              exact firstDiffLt_of_head _ _ _ _ (digitChar_lt_nine _ (by omega))
            · simp only [h9m, if_false]
              have hrec : FirstDiffLt (encNat ((natRepr m).length - 10))
                  (encNat ((natRepr n).length - 10)) := by
                have hLn_le : (natRepr n).length ≤ n := natRepr_length_le_self n hn0
                exact ih ((natRepr n).length - 10) (by omega)
                  ((natRepr m).length - 10) (by omega)
              exact (hrec.append_right _ _).cons '9'
        · -- equal lengths: the digit strings themselves differ
          have heq : (natRepr m).length = (natRepr n).length := by omega
          have hfd : FirstDiffLt (natRepr m) (natRepr n) := by
            refine sameLen_val_firstDiff _ _ (natRepr_all_digits m) (natRepr_all_digits n)
              heq ?_
            rw [valBE_natRepr, valBE_natRepr]
            exact hmn
          by_cases h9n : (natRepr n).length ≤ 9
          · have h9m : (natRepr m).length ≤ 9 := by omega
            simp only [h9m, h9n, if_true, heq]
            exact hfd.cons _
          · have h9m : ¬ (natRepr m).length ≤ 9 := by omega
            simp only [h9m, h9n, if_false, heq]
            exact (hfd.append_left _).cons '9'

theorem encNat_strCmp (m n : Nat) (h : m < n) (u v : List Char) :
    strCmp (encNat m ++ u) (encNat n ++ v) = .RIGHT :=
  firstDiffLt_strCmp (encNat_firstDiffLt n m h) u v

theorem encNat_inj {m n : Nat} (h : encNat m = encNat n) : m = n := by
  rcases lt_trichotomy m n with hlt | he | hlt
  · have h1 := firstDiffLt_self_append (encNat_firstDiffLt n m hlt)
    rw [h, (strCmp_eq_EQUAL_iff (encNat n) (encNat n)).2 rfl] at h1
    exact absurd h1 (by decide)
  · exact he
  · have h1 := firstDiffLt_self_append (encNat_firstDiffLt m n hlt)
    rw [← h, (strCmp_eq_EQUAL_iff (encNat m) (encNat m)).2 rfl] at h1
    exact absurd h1 (by decide)

end Verstr

namespace Verstr

/-! ### The 9's-complement translation and the signed encoder -/

theorem compl9_isDig (c : Char) (h : isDig c = true) : isDig (compl9 c) = true := by
  unfold compl9
  rw [if_pos h]
  exact isDig_digitChar _ (by omega)

theorem dval_compl9 (c : Char) (h : isDig c = true) : dval (compl9 c) = 9 - dval c := by
  unfold compl9
  rw [if_pos h]
  exact dval_digitChar _ (by omega)

theorem compl9_lt (c d : Char) (hc : isDig c = true) (hd : isDig d = true)
    (h : c < d) : compl9 d < compl9 c := by
  have h1 := (digit_lt_iff c d hc hd).1 h
  have h2 := dval_lt_ten d hd
  rw [digit_lt_iff _ _ (compl9_isDig d hd) (compl9_isDig c hc),
    dval_compl9 c hc, dval_compl9 d hd]
  omega

theorem allDig_of_append_left {p x : List Char} (h : allDig (p ++ x) = true) :
    allDig p = true := by
  simp only [allDig, List.all_append, Bool.and_eq_true] at h
  exact h.1

theorem allDig_of_append_right {p x : List Char} (h : allDig (p ++ x) = true) :
    allDig x = true := by
  simp only [allDig, List.all_append, Bool.and_eq_true] at h
  exact h.2

theorem firstDiffLt_map_compl9 {x y : List Char} (hx : allDig x = true)
    (hy : allDig y = true) (h : FirstDiffLt x y) :
    FirstDiffLt (y.map compl9) (x.map compl9) := by
  obtain ⟨p, c, d, x₁, y₁, hxe, hye, hcd⟩ := h
  subst hxe hye
  have hc : isDig c = true := by
    have := allDig_of_append_right hx
    simp only [allDig, List.all_cons, Bool.and_eq_true] at this
    exact this.1
  have hd : isDig d = true := by
    have := allDig_of_append_right hy
    simp only [allDig, List.all_cons, Bool.and_eq_true] at this
    exact this.1
  refine ⟨p.map compl9, compl9 d, compl9 c, y₁.map compl9, x₁.map compl9, ?_, ?_, ?_⟩
  · simp
  · simp
  · exact compl9_lt c d hc hd hcd

theorem dash_lt_digit (c : Char) (h : isDig c = true) : '-' < c := by
  have := (isDig_iff c).1 h
  rw [char_lt_iff]
  have hm : ('-').toNat = 45 := by decide
  omega

theorem dash_not_digit : isDig '-' = false := by decide

theorem valBE_eq_zero_iff_strip (t : List Char) (h : allDig t = true) :
    t.dropWhile (fun c => c = '0') = [] ↔ valBE t = 0 := by
  constructor
  · intro he
    rw [← valBE_dropWhile_zero, he]
    rfl
  · intro hv
    by_contra hne
    obtain ⟨c, cs, hct⟩ := List.exists_cons_of_ne_nil hne
    have hcd : isDig c = true := by
      have := allDig_dropWhile t (fun c => c = '0') h
      rw [hct] at this
      simp only [allDig, List.all_cons, Bool.and_eq_true] at this
      exact this.1
    have hc0 : c ≠ '0' := by
      have := head?_dropWhile_zero t
      rw [hct] at this
      simpa using this
    have h1 : 10 ^ cs.length ≤ valBE (c :: cs) :=
      valBE_cons_ge c cs (dval_pos c hcd hc0)
    have h2 : valBE t = valBE (c :: cs) := by
      rw [← valBE_dropWhile_zero t, hct]
    have h3 : 0 < 10 ^ cs.length := Nat.pos_pow_of_pos _ (by omega)
    omega

theorem sortableInteger_of_allDig (s : List Char) (h : allDig s = true) :
    sortableInteger s = encNat (valBE s) := by
  cases s with
  | nil =>
      show ['0', '0'] = encNat (valBE [])
      rw [show valBE [] = 0 from rfl, encNat_zero]
  | cons c t =>
      have hcd : isDig c = true := by
        simp only [allDig, List.all_cons, Bool.and_eq_true] at h
        exact h.1
      have hcm : c ≠ '-' := by
        intro he
        rw [he, dash_not_digit] at hcd
        exact absurd hcd (by decide)
      show (if c = '-' then _ else sortableIntegerAux (c :: t)) = _
      rw [if_neg hcm]
      exact sortableIntegerAux_eq_encNat (c :: t) h

theorem sortableInteger_neg_eq (t : List Char) :
    sortableInteger ('-' :: t) =
      if t.dropWhile (fun c => c = '0') = [] then ['0', '0']
      else '-' :: (sortableIntegerAux t).map compl9 := by
  cases t with
  | nil => rfl
  | cons c cs => rfl

theorem sortableInteger_neg_of_pos (t : List Char) (h : allDig t = true)
    (hv : valBE t ≠ 0) :
    sortableInteger ('-' :: t) = '-' :: (encNat (valBE t)).map compl9 := by
  rw [sortableInteger_neg_eq, if_neg, sortableIntegerAux_eq_encNat t h]
  intro he
  exact hv ((valBE_eq_zero_iff_strip t h).1 he)

theorem sortableInteger_neg_of_zero (t : List Char) (h : allDig t = true)
    (hv : valBE t = 0) : sortableInteger ('-' :: t) = ['0', '0'] := by
  rw [sortableInteger_neg_eq, if_pos ((valBE_eq_zero_iff_strip t h).2 hv)]

/-! ### Marker encodings for the total-order key suffix -/

theorem markerEnc_eq (n : Nat) : markerEnc n = '-' :: (encNat (n + 1)).map compl9 := by
  unfold markerEnc
  rw [sortableInteger_neg_eq, if_neg, sortableIntegerAux_eq_encNat _ (natRepr_all_digits _),
    valBE_natRepr]
  rw [natRepr_strip_self (n + 1) (by omega)]
  exact natRepr_ne_nil (n + 1)

theorem markerEnc_firstDiffLt {a b : Nat} (h : a < b) :
    FirstDiffLt (markerEnc b) (markerEnc a) := by
  rw [markerEnc_eq, markerEnc_eq]
  exact (firstDiffLt_map_compl9 (encNat_all_digits (a + 1)) (encNat_all_digits (b + 1))
    (encNat_firstDiffLt (b + 1) (a + 1) (by omega))).cons '-'

theorem markerEnc_head (n : Nat) : ∃ t, markerEnc n = '-' :: t :=
  ⟨(encNat (n + 1)).map compl9, markerEnc_eq n⟩

end Verstr

namespace Verstr

/-! ### The signed encoder respects numeric order -/

theorem validInt_cons (c : Char) (t : List Char) :
    validInt (c :: t) = if c = '-' then allDig t else allDig (c :: t) := rfl

theorem intVal_cons (c : Char) (t : List Char) :
    intVal (c :: t) = if c = '-' then -(valBE t : Int) else (valBE (c :: t) : Int) := rfl

theorem encNat_head_digit (n : Nat) : ∃ c cs, encNat n = c :: cs ∧ isDig c = true := by
  obtain ⟨c, cs, h⟩ := List.exists_cons_of_ne_nil (encNat_ne_nil n)
  refine ⟨c, cs, h, ?_⟩
  have hall := encNat_all_digits n
  rw [h] at hall
  simp only [allDig, List.all_cons, Bool.and_eq_true] at hall
  exact hall.1

theorem sortableInteger_view (s : List Char) (h : validInt s = true) :
    (0 ≤ intVal s ∧ sortableInteger s = encNat (intVal s).toNat) ∨
    (∃ a : Nat, 1 ≤ a ∧ intVal s = -(a : Int) ∧
      sortableInteger s = '-' :: (encNat a).map compl9) := by
  cases s with
  | nil =>
      left
      refine ⟨le_refl 0, ?_⟩
      show ['0', '0'] = encNat (0 : Int).toNat
      rw [show ((0 : Int).toNat) = 0 from rfl, encNat_zero]
  | cons c t =>
      rw [validInt_cons] at h
      by_cases hc : c = '-'
      · subst hc
        rw [if_pos rfl] at h
        by_cases hv : valBE t = 0
        · left
          rw [intVal_cons, if_pos rfl, hv]
          refine ⟨by omega, ?_⟩
          rw [sortableInteger_neg_of_zero t h hv]
          show _ = encNat ((- (0 : Nat) : Int)).toNat
          rw [show ((- (0 : Nat) : Int)).toNat = 0 by omega, encNat_zero]
        · right
          refine ⟨valBE t, by omega, ?_, ?_⟩
          · rw [intVal_cons, if_pos rfl]
          · exact sortableInteger_neg_of_pos t h hv
      · rw [if_neg hc] at h
        left
        rw [intVal_cons, if_neg hc]
        refine ⟨by omega, ?_⟩
        rw [sortableInteger_of_allDig (c :: t) h]
        congr 1

theorem sortableInteger_lt (u v : List Char) (hu : validInt u = true)
    (hv : validInt v = true) (h : intVal u < intVal v) :
    strCmp (sortableInteger u) (sortableInteger v) = .RIGHT := by
  rcases sortableInteger_view u hu with ⟨hu0, hue⟩ | ⟨a, ha1, hua, hue⟩ <;>
    rcases sortableInteger_view v hv with ⟨hv0, hve⟩ | ⟨b, hb1, hvb, hve⟩
  · rw [hue, hve]
    have hn : (intVal u).toNat < (intVal v).toNat := by omega
    have hs := encNat_strCmp _ _ hn [] []
    simpa using hs
  · omega
  · rw [hue, hve]
    obtain ⟨c, cs, hct, hcd⟩ := encNat_head_digit (intVal v).toNat
    rw [hct, strCmp_cons_cons, if_pos (dash_lt_digit c hcd)]
  · rw [hue, hve]
    have hba : b < a := by omega
    rw [strCmp_cons_self]
    exact firstDiffLt_self_append
      (firstDiffLt_map_compl9 (encNat_all_digits b) (encNat_all_digits a)
        (encNat_firstDiffLt a b hba))

theorem sortableInteger_zero_token (u : List Char) (hu : validInt u = true)
    (h : intVal u = 0) : sortableInteger u = ['0', '0'] := by
  rcases sortableInteger_view u hu with ⟨_, hue⟩ | ⟨a, ha1, hua, _⟩
  · rw [hue, h]
    exact encNat_zero
  · rw [hua] at h
    omega

theorem sortableInteger_val_inj (u v : List Char) (hu : validInt u = true)
    (hv : validInt v = true) (hne : intVal u ≠ intVal v) :
    sortableInteger u ≠ sortableInteger v := by
  intro he
  rcases lt_trichotomy (intVal u) (intVal v) with hlt | heq | hlt
  · have h1 := sortableInteger_lt u v hu hv hlt
    rw [he, (strCmp_eq_EQUAL_iff _ _).2 rfl] at h1
    exact absurd h1 (by decide)
  · exact hne heq
  · have h1 := sortableInteger_lt v u hv hu hlt
    rw [← he, (strCmp_eq_EQUAL_iff _ _).2 rfl] at h1
    exact absurd h1 (by decide)

end Verstr

namespace Verstr

/-! ### Structure of the digit-run phases -/

theorem suffix_ne_length_lt {l₁ l₂ : List Char} (h : l₁ <:+ l₂) (hne : l₁ ≠ l₂) :
    l₁.length < l₂.length := by
  have hle := h.length_le
  rcases Nat.lt_or_ge l₁.length l₂.length with hlt | hge
  · exact hlt
  · exact absurd (List.IsSuffix.eq_of_length h (by omega)) hne

theorem all_takeWhile_self (p : Char → Bool) (l : List Char) :
    (l.takeWhile p).all p = true := by
  induction l with
  | nil => rfl
  | cons c t ih =>
      by_cases h : p c
      · rw [List.takeWhile_cons_of_pos h]
        simp [h, ih]
      · rw [List.takeWhile_cons_of_neg (by simpa using h)]
        rfl

theorem startsDig_dropWhile_isDig (s : List Char) :
    startsDig (s.dropWhile isDig) = false := by
  induction s with
  | nil => rfl
  | cons c t ih =>
      by_cases h : isDig c
      · rw [List.dropWhile_cons_of_pos h]
        exact ih
      · rw [List.dropWhile_cons_of_neg (by simpa using h)]
        simpa [startsDig] using h

theorem run_decomp (s : List Char) : s = zPart s ++ (dPart s ++ restPart s) := by
  unfold zPart dPart restPart
  rw [List.takeWhile_append_dropWhile, List.takeWhile_append_dropWhile]

theorem allDig_dPart (s : List Char) : allDig (dPart s) = true := by
  unfold dPart allDig
  exact all_takeWhile_self isDig _

theorem allZero_zPart (s : List Char) :
    (zPart s).all (fun c => c = '0') = true := by
  unfold zPart
  exact all_takeWhile_self _ s

theorem dPart_head (s : List Char) : (dPart s).head? ≠ some '0' := by
  unfold dPart
  cases hh : s.dropWhile (fun c => c = '0') with
  | nil => simp
  | cons c cs =>
      have hc : c ≠ '0' := by
        have := head?_dropWhile_zero s
        rw [hh] at this
        simpa using this
      by_cases hd : isDig c
      · rw [List.takeWhile_cons_of_pos hd]
        simpa using hc
      · rw [List.takeWhile_cons_of_neg (by simpa using hd)]
        simp

theorem startsDig_restPart (s : List Char) : startsDig (restPart s) = false :=
  startsDig_dropWhile_isDig _

theorem restPart_suffix (s : List Char) : restPart s <:+ s :=
  (List.dropWhile_suffix _).trans (List.dropWhile_suffix _)

/-! ### The common-zeros phase -/

theorem dropBothZeros_nil_left (r : List Char) : dropBothZeros [] r = ([], r) := by
  cases r <;> rfl

theorem dropBothZeros_nil_right (l : List Char) : dropBothZeros l [] = (l, []) := by
  cases l <;> rfl

theorem dropBothZeros_cons (a : Char) (as : List Char) (b : Char) (bs : List Char) :
    dropBothZeros (a :: as) (b :: bs) =
      if a = '0' ∧ b = '0' then dropBothZeros as bs else (a :: as, b :: bs) := rfl

theorem dropBothZeros_swap (l r : List Char) :
    dropBothZeros r l = ((dropBothZeros l r).2, (dropBothZeros l r).1) := by
  induction l generalizing r with
  | nil => rw [dropBothZeros_nil_left, dropBothZeros_nil_right]
  | cons a as ih =>
      cases r with
      | nil => rw [dropBothZeros_nil_left, dropBothZeros_nil_right]
      | cons b bs =>
          rw [dropBothZeros_cons, dropBothZeros_cons]
          by_cases h : a = '0' ∧ b = '0'
          · rw [if_pos h, if_pos ⟨h.2, h.1⟩, ih]
          · rw [if_neg h, if_neg (fun hc => h ⟨hc.2, hc.1⟩)]

theorem dropBothZeros_not_both (l r : List Char) :
    ¬((dropBothZeros l r).1.head? = some '0' ∧
      (dropBothZeros l r).2.head? = some '0') := by
  induction l generalizing r with
  | nil =>
      rw [dropBothZeros_nil_left]
      simp
  | cons a as ih =>
      cases r with
      | nil =>
          rw [dropBothZeros_nil_right]
          simp
      | cons b bs =>
          rw [dropBothZeros_cons]
          by_cases h : a = '0' ∧ b = '0'
          · rw [if_pos h]
            exact ih bs
          · rw [if_neg h]
            intro hc
            simp only [List.head?_cons, Option.some.injEq] at hc
            exact h ⟨hc.1, hc.2⟩

theorem dropBothZeros_fst_dropWhile (l r : List Char) :
    (dropBothZeros l r).1.dropWhile (fun c => c = '0') =
      l.dropWhile (fun c => c = '0') := by
  induction l generalizing r with
  | nil => rw [dropBothZeros_nil_left]
  | cons a as ih =>
      cases r with
      | nil => rw [dropBothZeros_nil_right]
      | cons b bs =>
          rw [dropBothZeros_cons]
          by_cases h : a = '0' ∧ b = '0'
          · rw [if_pos h, ih bs, h.1, List.dropWhile_cons_of_pos (by simp)]
          · rw [if_neg h]

theorem dropBothZeros_snd_dropWhile (l r : List Char) :
    (dropBothZeros l r).2.dropWhile (fun c => c = '0') =
      r.dropWhile (fun c => c = '0') := by
  rw [show (dropBothZeros l r).2 = (dropBothZeros r l).1 by rw [dropBothZeros_swap]]
  exact dropBothZeros_fst_dropWhile r l

theorem zPart_nil : zPart [] = [] := rfl

theorem zPart_cons_zero (s : List Char) : zPart ('0' :: s) = '0' :: zPart s := by
  unfold zPart
  rw [List.takeWhile_cons_of_pos (by simp)]

theorem zPart_cons_of_ne (c : Char) (s : List Char) (h : c ≠ '0') :
    zPart (c :: s) = [] := by
  unfold zPart
  rw [List.takeWhile_cons_of_neg (by simpa using h)]

theorem dropBothZeros_fst_head (l r : List Char) :
    ((dropBothZeros l r).1.head? = some '0') ↔
      (zPart r).length < (zPart l).length := by
  induction l generalizing r with
  | nil =>
      rw [dropBothZeros_nil_left]
      simp [zPart_nil]
  | cons a as ih =>
      cases r with
      | nil =>
          rw [dropBothZeros_nil_right]
          simp only [List.head?_cons, Option.some.injEq, zPart_nil, List.length_nil]
          by_cases ha : a = '0'
          · subst ha
            rw [zPart_cons_zero]
            simp
          · rw [zPart_cons_of_ne a as ha]
            simp [ha]
      | cons b bs =>
          rw [dropBothZeros_cons]
          by_cases hab : a = '0' ∧ b = '0'
          · obtain ⟨rfl, rfl⟩ := hab
            rw [if_pos ⟨rfl, rfl⟩, ih bs, zPart_cons_zero, zPart_cons_zero]
            simp only [List.length_cons]
            omega
          · rw [if_neg hab]
            simp only [List.head?_cons, Option.some.injEq]
            by_cases ha : a = '0'
            · have hb : b ≠ '0' := fun hb => hab ⟨ha, hb⟩
              subst ha
              rw [zPart_cons_zero, zPart_cons_of_ne b bs hb]
              simp
            · rw [zPart_cons_of_ne a as ha]
              simp [ha]

theorem dropBothZeros_snd_head (l r : List Char) :
    ((dropBothZeros l r).2.head? = some '0') ↔
      (zPart l).length < (zPart r).length := by
  rw [show (dropBothZeros l r).2 = (dropBothZeros r l).1 by rw [dropBothZeros_swap]]
  exact dropBothZeros_fst_head r l

/-! ### The left-aligned digit scan -/

theorem scanDigits_nil_left (d : CompareResult) (y : List Char) :
    scanDigits d [] y = (d, [], y) := by
  cases y <;> rfl

theorem scanDigits_nil_right (d : CompareResult) (x : List Char) :
    scanDigits d x [] = (d, x, []) := by
  cases x <;> rfl

theorem scanDigits_cons (d : CompareResult) (a : Char) (as : List Char)
    (b : Char) (bs : List Char) :
    scanDigits d (a :: as) (b :: bs) =
      if isDig a ∧ isDig b then
        scanDigits
          (if d = .EQUAL ∧ a ≠ b then (if b < a then .LEFT else .RIGHT) else d)
          as bs
      else (d, a :: as, b :: bs) := rfl

theorem scanDigits_stop (d : CompareResult) (x y : List Char)
    (hx : startsDig x = false) : scanDigits d x y = (d, x, y) := by
  cases x with
  | nil => exact scanDigits_nil_left d y
  | cons c cs =>
      cases y with
      | nil => exact scanDigits_nil_right d (c :: cs)
      | cons b bs =>
          rw [scanDigits_cons, if_neg]
          intro hc
          rw [show startsDig (c :: cs) = isDig c from rfl, hc.1] at hx
          exact absurd hx (by decide)

theorem scanDigits_common (e : List Char) (he : allDig e = true)
    (d : CompareResult) (x y : List Char) :
    scanDigits d (e ++ x) (e ++ y) = scanDigits d x y := by
  induction e generalizing d with
  | nil => rfl
  | cons c cs ih =>
      simp only [allDig, List.all_cons, Bool.and_eq_true] at he
      simp only [List.cons_append]
      rw [scanDigits_cons, if_pos ⟨he.1, he.1⟩, if_neg (by simp)]
      exact ih (by simpa [allDig] using he.2) _

theorem scanDigits_consume : ∀ (e₁ e₂ : List Char) (d : CompareResult)
    (x y : List Char), allDig e₁ = true → allDig e₂ = true →
    e₁.length ≤ e₂.length → startsDig x = false →
    ∃ d', scanDigits d (e₁ ++ x) (e₂ ++ y) = (d', x, e₂.drop e₁.length ++ y) := by
  intro e₁
  induction e₁ with
  | nil =>
      intro e₂ d x y _ _ _ hx
      refine ⟨d, ?_⟩
      simp only [List.nil_append, List.length_nil, List.drop_zero]
      exact scanDigits_stop d x (e₂ ++ y) hx
  | cons c cs ih =>
      intro e₂ d x y h1 h2 hlen hx
      cases e₂ with
      | nil => simp at hlen
      | cons b bs =>
          simp only [allDig, List.all_cons, Bool.and_eq_true] at h1 h2
          simp only [List.cons_append]
          rw [scanDigits_cons, if_pos ⟨h1.1, h2.1⟩]
          simp only [List.length_cons, List.drop_succ_cons]
          exact ih bs _ x y (by simpa [allDig] using h1.2)
            (by simpa [allDig] using h2.2) (by simpa using hlen) hx

theorem scanDigits_keep : ∀ (e₁ e₂ : List Char) (d : CompareResult)
    (x y : List Char), allDig e₁ = true → allDig e₂ = true →
    e₁.length = e₂.length → d ≠ .EQUAL → startsDig x = false →
    scanDigits d (e₁ ++ x) (e₂ ++ y) = (d, x, y) := by
  intro e₁
  induction e₁ with
  | nil =>
      intro e₂ d x y _ _ hlen hd hx
      have : e₂ = [] := List.eq_nil_of_length_eq_zero (by simpa using hlen.symm)
      subst this
      exact scanDigits_stop d x y hx
  | cons c cs ih =>
      intro e₂ d x y h1 h2 hlen hd hx
      cases e₂ with
      | nil => simp at hlen
      | cons b bs =>
          simp only [allDig, List.all_cons, Bool.and_eq_true] at h1 h2
          simp only [List.cons_append]
          rw [scanDigits_cons, if_pos ⟨h1.1, h2.1⟩, if_neg (by simp [hd])]
          exact ih bs d x y (by simpa [allDig] using h1.2)
            (by simpa [allDig] using h2.2) (by simpa using hlen) hd hx

end Verstr

namespace Verstr

/-! ### Characterization of one digit-run comparison -/

theorem dropWhile_zero_decomp (s : List Char) :
    s.dropWhile (fun c => c = '0') = dPart s ++ restPart s :=
  (List.takeWhile_append_dropWhile isDig _).symm

theorem digitRunStep_def (l r : List Char) : digitRunStep l r =
    (if startsDig (scanDigits .EQUAL
          ((dropBothZeros l r).1.dropWhile (fun c => c = '0'))
          ((dropBothZeros l r).2.dropWhile (fun c => c = '0'))).2.1 then .inl .LEFT
     else if startsDig (scanDigits .EQUAL
          ((dropBothZeros l r).1.dropWhile (fun c => c = '0'))
          ((dropBothZeros l r).2.dropWhile (fun c => c = '0'))).2.2 then .inl .RIGHT
     else if (scanDigits .EQUAL
          ((dropBothZeros l r).1.dropWhile (fun c => c = '0'))
          ((dropBothZeros l r).2.dropWhile (fun c => c = '0'))).1 ≠ .EQUAL then
       .inl (scanDigits .EQUAL
          ((dropBothZeros l r).1.dropWhile (fun c => c = '0'))
          ((dropBothZeros l r).2.dropWhile (fun c => c = '0'))).1
     else .inr
       ((if (dropBothZeros l r).2.head? = some '0' then .LEFT
         else if (dropBothZeros l r).1.head? = some '0' then .RIGHT else .EQUAL),
        (scanDigits .EQUAL
          ((dropBothZeros l r).1.dropWhile (fun c => c = '0'))
          ((dropBothZeros l r).2.dropWhile (fun c => c = '0'))).2.1,
        (scanDigits .EQUAL
          ((dropBothZeros l r).1.dropWhile (fun c => c = '0'))
          ((dropBothZeros l r).2.dropWhile (fun c => c = '0'))).2.2)) := rfl

theorem digitRunStep_reduce (l r : List Char) : digitRunStep l r =
    (if startsDig (scanDigits .EQUAL (l.dropWhile (fun c => c = '0'))
          (r.dropWhile (fun c => c = '0'))).2.1 then .inl .LEFT
     else if startsDig (scanDigits .EQUAL (l.dropWhile (fun c => c = '0'))
          (r.dropWhile (fun c => c = '0'))).2.2 then .inl .RIGHT
     else if (scanDigits .EQUAL (l.dropWhile (fun c => c = '0'))
          (r.dropWhile (fun c => c = '0'))).1 ≠ .EQUAL then
       .inl (scanDigits .EQUAL (l.dropWhile (fun c => c = '0'))
          (r.dropWhile (fun c => c = '0'))).1
     else .inr
       ((if (dropBothZeros l r).2.head? = some '0' then .LEFT
         else if (dropBothZeros l r).1.head? = some '0' then .RIGHT else .EQUAL),
        (scanDigits .EQUAL (l.dropWhile (fun c => c = '0'))
          (r.dropWhile (fun c => c = '0'))).2.1,
        (scanDigits .EQUAL (l.dropWhile (fun c => c = '0'))
          (r.dropWhile (fun c => c = '0'))).2.2)) := by
  rw [digitRunStep_def, dropBothZeros_fst_dropWhile, dropBothZeros_snd_dropWhile]

theorem canon_length_le {d₁ d₂ : List Char} (h1 : allDig d₁ = true)
    (hz1 : d₁.head? ≠ some '0') (h2 : allDig d₂ = true)
    (hv : valBE d₁ < valBE d₂) : d₁.length ≤ d₂.length := by
  by_contra hlen
  push_neg at hlen
  obtain ⟨c, cs, hct⟩ : ∃ c cs, d₁ = c :: cs := by
    cases d₁ with
    | nil => simp at hlen
    | cons c cs => exact ⟨c, cs, rfl⟩
  have hcd : isDig c = true := by
    rw [hct] at h1
    simp only [allDig, List.all_cons, Bool.and_eq_true] at h1
    exact h1.1
  have hc0 : c ≠ '0' := by
    rw [hct] at hz1
    simpa using hz1
  have hge : 10 ^ cs.length ≤ valBE d₁ := by
    rw [hct]
    exact valBE_cons_ge c cs (dval_pos c hcd hc0)
  have hlt2 : valBE d₂ < 10 ^ d₂.length := valBE_lt d₂ h2
  have hpow : 10 ^ d₂.length ≤ 10 ^ cs.length := by
    apply Nat.pow_le_pow_right (by omega)
    rw [hct] at hlen
    simp only [List.length_cons] at hlen
    omega
  omega

theorem canon_eq {d₁ d₂ : List Char} (h1 : allDig d₁ = true) (h2 : allDig d₂ = true)
    (hz1 : d₁.head? ≠ some '0') (hz2 : d₂.head? ≠ some '0')
    (hv : valBE d₁ = valBE d₂) : d₁ = d₂ := by
  rcases Nat.eq_zero_or_pos (valBE d₁) with hv0 | hvpos
  · have hv2 : valBE d₂ = 0 := by omega
    have hnil : ∀ d : List Char, allDig d = true → d.head? ≠ some '0' →
        valBE d = 0 → d = [] := by
      intro d hd hz hval
      cases d with
      | nil => rfl
      | cons c cs =>
          have hcd : isDig c = true := by
            simp only [allDig, List.all_cons, Bool.and_eq_true] at hd
            exact hd.1
          have hc0 : c ≠ '0' := by simpa using hz
          have := valBE_cons_ge c cs (dval_pos c hcd hc0)
          have hp : 0 < 10 ^ cs.length := Nat.pos_pow_of_pos _ (by omega)
          omega
    rw [hnil d₁ h1 hz1 hv0, hnil d₂ h2 hz2 hv2]
  · have hne1 : d₁ ≠ [] := by
      intro he
      rw [he] at hvpos
      simp [valBE] at hvpos
    have hne2 : d₂ ≠ [] := by
      intro he
      rw [hv, he] at hvpos
      simp [valBE] at hvpos
    have hc1 := natRepr_canonical d₁ h1 hne1 hz1
    have hc2 := natRepr_canonical d₂ h2 hne2 hz2
    rw [← hc1, ← hc2, hv]

theorem allDig_drop (s : List Char) (k : Nat) (h : allDig s = true) :
    allDig (s.drop k) = true := by
  induction k generalizing s with
  | zero => simpa using h
  | succ n ih =>
      cases s with
      | nil => rfl
      | cons c cs =>
          simp only [allDig, List.all_cons, Bool.and_eq_true] at h
          simpa using ih cs (by simpa [allDig] using h.2)

theorem digitRunStep_lt (l r : List Char)
    (hv : valBE (dPart l) < valBE (dPart r)) : digitRunStep l r = .inl .RIGHT := by
  rw [digitRunStep_reduce, dropWhile_zero_decomp l, dropWhile_zero_decomp r]
  have hdl : allDig (dPart l) = true := allDig_dPart l
  have hdr : allDig (dPart r) = true := allDig_dPart r
  have hlen : (dPart l).length ≤ (dPart r).length :=
    canon_length_le hdl (dPart_head l) hdr hv
  rcases Nat.lt_or_ge (dPart l).length (dPart r).length with hlt | hge
  · -- the right run is longer
    obtain ⟨d', hq⟩ := scanDigits_consume (dPart l) (dPart r) .EQUAL
      (restPart l) (restPart r) hdl hdr (by omega) (startsDig_restPart l)
    rw [hq]
    obtain ⟨c, cs, hct⟩ : ∃ c cs, (dPart r).drop (dPart l).length = c :: cs := by
      cases hd : (dPart r).drop (dPart l).length with
      | nil =>
          have := congrArg List.length hd
          simp only [List.length_drop, List.length_nil] at this
          omega
      | cons c cs => exact ⟨c, cs, rfl⟩
    have hcd : isDig c = true := by
      have := allDig_drop (dPart r) (dPart l).length hdr
      rw [hct] at this
      simp only [allDig, List.all_cons, Bool.and_eq_true] at this
      exact this.1
    rw [if_neg (by simp [startsDig_restPart l]), if_pos]
    rw [hct]
    simpa [startsDig] using hcd
  · -- equal lengths: decided by the first differing digit
    have heq : (dPart l).length = (dPart r).length := by omega
    obtain ⟨p, c, d, x₁, y₁, hx, hy, hcd⟩ :=
      sameLen_val_firstDiff (dPart l) (dPart r) hdl hdr heq hv
    have hlen2 : x₁.length = y₁.length := by
      have h1 := congrArg List.length hx
      have h2 := congrArg List.length hy
      simp only [List.length_append, List.length_cons] at h1 h2
      omega
    have hpdig : allDig p = true := by
      rw [hx] at hdl
      exact allDig_of_append_left hdl
    have hcdig : isDig c = true := by
      rw [hx] at hdl
      have := allDig_of_append_right hdl
      simp only [allDig, List.all_cons, Bool.and_eq_true] at this
      exact this.1
    have hddig : isDig d = true := by
      rw [hy] at hdr
      have := allDig_of_append_right hdr
      simp only [allDig, List.all_cons, Bool.and_eq_true] at this
      exact this.1
    have hx1dig : allDig x₁ = true := by
      rw [hx] at hdl
      have := allDig_of_append_right hdl
      simp only [allDig, List.all_cons, Bool.and_eq_true] at this
      simpa [allDig] using this.2
    have hy1dig : allDig y₁ = true := by
      rw [hy] at hdr
      have := allDig_of_append_right hdr
      simp only [allDig, List.all_cons, Bool.and_eq_true] at this
      simpa [allDig] using this.2
    have hscan : scanDigits .EQUAL (dPart l ++ restPart l) (dPart r ++ restPart r) =
        (.RIGHT, restPart l, restPart r) := by
      rw [hx, hy, List.append_assoc, List.append_assoc,
        scanDigits_common p hpdig, List.cons_append, List.cons_append,
        scanDigits_cons, if_pos ⟨hcdig, hddig⟩,
        if_pos ⟨rfl, ne_of_lt hcd⟩, if_neg (asymm hcd)]
      exact scanDigits_keep x₁ y₁ .RIGHT (restPart l) (restPart r)
        hx1dig hy1dig hlen2 (by decide) (startsDig_restPart l)
    rw [hscan]
    simp [startsDig_restPart]

theorem digitRunStep_eq_val (l r : List Char)
    (hv : valBE (dPart l) = valBE (dPart r)) :
    digitRunStep l r =
      .inr (sigOf (zPart l).length (zPart r).length, restPart l, restPart r) := by
  have hde : dPart l = dPart r :=
    canon_eq (allDig_dPart l) (allDig_dPart r) (dPart_head l) (dPart_head r) hv
  rw [digitRunStep_reduce, dropWhile_zero_decomp l, dropWhile_zero_decomp r, hde]
  rw [scanDigits_common (dPart r) (allDig_dPart r),
    scanDigits_stop _ _ _ (startsDig_restPart l)]
  rw [if_neg (by simp [startsDig_restPart l]),
    if_neg (by simp [startsDig_restPart r]), if_neg (by simp)]
  have hsig : (if (dropBothZeros l r).2.head? = some '0' then CompareResult.LEFT
      else if (dropBothZeros l r).1.head? = some '0' then CompareResult.RIGHT
      else CompareResult.EQUAL) = sigOf (zPart l).length (zPart r).length := by
    unfold sigOf
    by_cases h2 : (dropBothZeros l r).2.head? = some '0'
    · have hzz := (dropBothZeros_snd_head l r).1 h2
      rw [if_pos h2, if_neg (by omega), if_pos hzz]
    · have hz2 : ¬ (zPart l).length < (zPart r).length := by
        rw [← dropBothZeros_snd_head l r]
        exact h2
      rw [if_neg h2]
      by_cases h1 : (dropBothZeros l r).1.head? = some '0'
      · have hzz := (dropBothZeros_fst_head l r).1 h1
        rw [if_pos h1, if_pos hzz]
      · have hz1 : ¬ (zPart r).length < (zPart l).length := by
          rw [← dropBothZeros_fst_head l r]
          exact h1
        rw [if_neg h1, if_neg hz1, if_neg hz2]
  rw [hsig]

end Verstr

namespace Verstr

/-! ### Symmetry of the digit-run comparison -/

theorem scanDigits_swap : ∀ (x y : List Char) (d : CompareResult),
    scanDigits d.inv y x =
      ((scanDigits d x y).1.inv, (scanDigits d x y).2.2, (scanDigits d x y).2.1) := by
  intro x
  induction x with
  | nil =>
      intro y d
      rw [scanDigits_nil_left, scanDigits_nil_right]
  | cons a as ih =>
      intro y d
      cases y with
      | nil => rw [scanDigits_nil_left, scanDigits_nil_right]
      | cons b bs =>
          rw [scanDigits_cons, scanDigits_cons]
          by_cases h : isDig a ∧ isDig b
          · rw [if_pos h, if_pos ⟨h.2, h.1⟩]
            have harg : (if d.inv = .EQUAL ∧ b ≠ a then (if a < b then .LEFT else .RIGHT)
                else d.inv) =
                (if d = .EQUAL ∧ a ≠ b then (if b < a then .LEFT else .RIGHT) else d).inv := by
              by_cases hd : d = .EQUAL
              · subst hd
                by_cases hab : a = b
                · subst hab
                  simp
                · have hc1 : CompareResult.EQUAL.inv = CompareResult.EQUAL ∧ b ≠ a :=
                    ⟨rfl, Ne.symm hab⟩
                  have hc2 : CompareResult.EQUAL = CompareResult.EQUAL ∧ a ≠ b :=
                    ⟨rfl, hab⟩
                  rw [if_pos hc1, if_pos hc2]
                  rcases lt_trichotomy a b with hlt | he | hlt
                  · rw [if_pos hlt, if_neg (asymm hlt)]
                    rfl
                  · exact absurd he hab
                  · rw [if_neg (asymm hlt), if_pos hlt]
                    rfl
              · have h1 : ¬(d.inv = .EQUAL ∧ b ≠ a) :=
                  fun hc => hd ((inv_eq_EQUAL_iff d).1 hc.1)
                have h2 : ¬(d = .EQUAL ∧ a ≠ b) := fun hc => hd hc.1
                rw [if_neg h1, if_neg h2]
            rw [harg]
            exact ih bs _
          · rw [if_neg h, if_neg (fun hc => h ⟨hc.2, hc.1⟩)]

theorem scanDigits_not_both : ∀ (d : CompareResult) (x y : List Char),
    ¬(startsDig (scanDigits d x y).2.1 = true ∧
      startsDig (scanDigits d x y).2.2 = true) := by
  intro d x
  induction x generalizing d with
  | nil =>
      intro y
      rw [scanDigits_nil_left]
      simp [startsDig]
  | cons a as ih =>
      intro y
      cases y with
      | nil =>
          rw [scanDigits_nil_right]
          simp [startsDig]
      | cons b bs =>
          rw [scanDigits_cons]
          by_cases h : isDig a ∧ isDig b
          · rw [if_pos h]
            exact ih _ bs
          · rw [if_neg h]
            intro hc
            have hc1 : isDig a = true := hc.1
            have hc2 : isDig b = true := hc.2
            exact h ⟨hc1, hc2⟩

theorem digitRunStep_scan (l r : List Char) (d0 : CompareResult) (l3 r3 : List Char)
    (hq : scanDigits .EQUAL (l.dropWhile (fun c => c = '0'))
      (r.dropWhile (fun c => c = '0')) = (d0, l3, r3)) :
    digitRunStep l r =
      (if startsDig l3 then .inl .LEFT
       else if startsDig r3 then .inl .RIGHT
       else if d0 ≠ .EQUAL then .inl d0
       else .inr
         ((if (dropBothZeros l r).2.head? = some '0' then .LEFT
           else if (dropBothZeros l r).1.head? = some '0' then .RIGHT else .EQUAL),
          l3, r3)) := by
  rw [digitRunStep_reduce, hq]

theorem digitRunStep_swap (l r : List Char) :
    digitRunStep r l =
      (match digitRunStep l r with
       | .inl d => .inl d.inv
       | .inr (z, a, b) => .inr (z.inv, b, a)) := by
  rcases hq : scanDigits .EQUAL (l.dropWhile (fun c => c = '0'))
    (r.dropWhile (fun c => c = '0')) with ⟨d0, l3, r3⟩
  have hsw := scanDigits_swap (l.dropWhile (fun c => c = '0'))
    (r.dropWhile (fun c => c = '0')) .EQUAL
  rw [hq] at hsw
  have hsw2 : scanDigits .EQUAL (r.dropWhile (fun c => c = '0'))
      (l.dropWhile (fun c => c = '0')) = (d0.inv, r3, l3) := by
    rw [show CompareResult.EQUAL = CompareResult.EQUAL.inv from rfl]
    exact hsw
  have hnb := scanDigits_not_both .EQUAL (l.dropWhile (fun c => c = '0'))
    (r.dropWhile (fun c => c = '0'))
  rw [hq] at hnb
  have hnb2 : ¬(startsDig l3 = true ∧ startsDig r3 = true) := hnb
  rw [digitRunStep_scan l r d0 l3 r3 hq, digitRunStep_scan r l d0.inv r3 l3 hsw2]
  by_cases h3 : startsDig l3 = true
  · have h4 : startsDig r3 = false := by
      cases hr3 : startsDig r3
      · rfl
      · exact absurd ⟨h3, hr3⟩ hnb2
    simp [h3, h4]
  · have h3f : startsDig l3 = false := by
      cases hl3 : startsDig l3
      · rfl
      · exact absurd hl3 h3
    by_cases h5 : startsDig r3 = true
    · simp [h3f, h5]
    · have h5f : startsDig r3 = false := by
        cases hr3 : startsDig r3
        · rfl
        · exact absurd hr3 h5
      by_cases h6 : d0 = .EQUAL
      · subst h6
        simp only [h3f, h5f, Bool.false_eq_true, if_false, ne_eq, not_true_eq_false,
          inv_EQUAL, if_neg, not_false_eq_true, if_true]
        have hnb3 := dropBothZeros_not_both l r
        rw [dropBothZeros_swap]
        by_cases hp1 : (dropBothZeros l r).1.head? = some '0'
        · have hp2 : ¬(dropBothZeros l r).2.head? = some '0' := fun hc => hnb3 ⟨hp1, hc⟩
          simp [hp1, hp2]
        · by_cases hp2 : (dropBothZeros l r).2.head? = some '0' <;> simp [hp1, hp2]
      · simp [h3f, h5f, h6]

theorem digitRunStep_gt (l r : List Char)
    (hv : valBE (dPart r) < valBE (dPart l)) : digitRunStep l r = .inl .LEFT := by
  have h1 := digitRunStep_lt r l hv
  have h2 := digitRunStep_swap r l
  rw [h1] at h2
  simpa using h2

theorem digitRunStep_inr {l r : List Char} {z : CompareResult} {l3 r3 : List Char}
    (h : digitRunStep l r = .inr (z, l3, r3)) :
    z = sigOf (zPart l).length (zPart r).length ∧ l3 = restPart l ∧ r3 = restPart r ∧
      dPart l = dPart r := by
  rcases lt_trichotomy (valBE (dPart l)) (valBE (dPart r)) with hv | hv | hv
  · rw [digitRunStep_lt l r hv] at h
    exact absurd h (by simp)
  · have hde := canon_eq (allDig_dPart l) (allDig_dPart r) (dPart_head l) (dPart_head r) hv
    rw [digitRunStep_eq_val l r hv] at h
    simp only [Sum.inr.injEq, Prod.mk.injEq] at h
    exact ⟨h.1.symm, h.2.1.symm, h.2.2.symm, hde⟩
  · rw [digitRunStep_gt l r hv] at h
    exact absurd h (by simp)

theorem digitRunStep_inr_lengths {l r : List Char} {z : CompareResult}
    {l3 r3 : List Char} (hl : startsDig l = true) (hr : startsDig r = true)
    (h : digitRunStep l r = .inr (z, l3, r3)) :
    l3.length < l.length ∧ r3.length < r.length := by
  obtain ⟨_, hl3, hr3, _⟩ := digitRunStep_inr h
  subst hl3 hr3
  constructor
  · apply suffix_ne_length_lt (restPart_suffix l)
    intro he
    rw [← he, startsDig_restPart l] at hl
    exact absurd hl (by decide)
  · apply suffix_ne_length_lt (restPart_suffix r)
    intro he
    rw [← he, startsDig_restPart r] at hr
    exact absurd hr (by decide)

/-! ### The main comparison loop -/

theorem compareLoop_zero (m : TotalOrderMode) (gz : CompareResult) (l r : List Char) :
    compareLoop 0 m gz l r = .EQUAL := rfl

theorem compareLoop_nil_nil (f : Nat) (m : TotalOrderMode) (gz : CompareResult) :
    compareLoop (f + 1) m gz [] [] = if m = .off then .EQUAL else gz := rfl

theorem compareLoop_nil_cons (f : Nat) (m : TotalOrderMode) (gz : CompareResult)
    (rc : Char) (rs : List Char) : compareLoop (f + 1) m gz [] (rc :: rs) = .RIGHT := rfl

theorem compareLoop_cons_nil (f : Nat) (m : TotalOrderMode) (gz : CompareResult)
    (lc : Char) (ls : List Char) : compareLoop (f + 1) m gz (lc :: ls) [] = .LEFT := rfl

theorem compareLoop_cons_cons (f : Nat) (m : TotalOrderMode) (gz : CompareResult)
    (lc : Char) (ls : List Char) (rc : Char) (rs : List Char) :
    compareLoop (f + 1) m gz (lc :: ls) (rc :: rs) =
      if isDig lc ∧ isDig rc then
        match digitRunStep (lc :: ls) (rc :: rs) with
        | .inl res => res
        | .inr (z, l3, r3) =>
            if z ≠ .EQUAL ∧ m = .elementwise then z
            else compareLoop f m (if gz = .EQUAL then z else gz) l3 r3
      else
        if rc < lc then .LEFT
        else if lc < rc then .RIGHT
        else compareLoop f m gz ls rs := rfl

theorem compareLoop_irrel : ∀ f₁ f₂ (m : TotalOrderMode) (gz : CompareResult)
    (l r : List Char), l.length + r.length < f₁ → l.length + r.length < f₂ →
    compareLoop f₁ m gz l r = compareLoop f₂ m gz l r := by
  intro f₁
  induction f₁ with
  | zero => intro f₂ m gz l r h1 h2; omega
  | succ f ih =>
      intro f₂ m gz l r h1 h2
      cases f₂ with
      | zero => omega
      | succ g =>
          cases l with
          | nil =>
              cases r with
              | nil => rfl
              | cons rc rs => rfl
          | cons lc ls =>
              cases r with
              | nil => rfl
              | cons rc rs =>
                  rw [compareLoop_cons_cons, compareLoop_cons_cons]
                  by_cases hd : isDig lc ∧ isDig rc
                  · rw [if_pos hd, if_pos hd]
                    rcases hq : digitRunStep (lc :: ls) (rc :: rs) with res | ⟨z, l3, r3⟩
                    · rfl
                    · show (if z ≠ .EQUAL ∧ m = .elementwise then z
                          else compareLoop f m (if gz = .EQUAL then z else gz) l3 r3) =
                        (if z ≠ .EQUAL ∧ m = .elementwise then z
                          else compareLoop g m (if gz = .EQUAL then z else gz) l3 r3)
                      by_cases hz : z ≠ .EQUAL ∧ m = .elementwise
                      · rw [if_pos hz, if_pos hz]
                      · rw [if_neg hz, if_neg hz]
                        have hlen := digitRunStep_inr_lengths
                          (show startsDig (lc :: ls) = true from hd.1)
                          (show startsDig (rc :: rs) = true from hd.2) hq
                        simp only [List.length_cons] at h1 h2 hlen
                        exact ih g m _ l3 r3 (by omega) (by omega)
                  · rw [if_neg hd, if_neg hd]
                    by_cases hlt : rc < lc
                    · rw [if_pos hlt, if_pos hlt]
                    · rw [if_neg hlt, if_neg hlt]
                      by_cases hlt2 : lc < rc
                      · rw [if_pos hlt2, if_pos hlt2]
                      · rw [if_neg hlt2, if_neg hlt2]
                        simp only [List.length_cons] at h1 h2
                        exact ih g m gz ls rs (by omega) (by omega)

theorem compare_eq_loop (l r : List Char) (m : TotalOrderMode) (f : Nat)
    (hf : l.length + r.length < f) :
    compare l r m = compareLoop f m .EQUAL l r :=
  compareLoop_irrel (l.length + r.length + 1) f m .EQUAL l r (by omega) hf

end Verstr

namespace Verstr

/-! ### Reflexivity and antisymmetry of the comparator -/

theorem sigOf_self (a : Nat) : sigOf a a = .EQUAL := by
  unfold sigOf
  simp

theorem sigOf_swap (a b : Nat) : sigOf b a = (sigOf a b).inv := by
  unfold sigOf
  rcases lt_trichotomy a b with h | h | h
  · rw [if_pos h, if_neg (by omega), if_pos h]
    rfl
  · subst h
    simp
  · rw [if_neg (by omega), if_pos h, if_pos h]
    rfl

theorem compareLoop_refl : ∀ f (a : List Char) (m : TotalOrderMode),
    a.length + a.length < f → compareLoop f m .EQUAL a a = .EQUAL := by
  intro f
  induction f with
  | zero => intro a m h; omega
  | succ f ih =>
      intro a m h
      cases a with
      | nil =>
          rw [compareLoop_nil_nil]
          by_cases hm : m = .off <;> simp [hm]
      | cons c cs =>
          rw [compareLoop_cons_cons]
          by_cases hd : isDig c ∧ isDig c
          · rw [if_pos hd]
            have hstep := digitRunStep_eq_val (c :: cs) (c :: cs) rfl
            rw [sigOf_self] at hstep
            rw [hstep]
            show (if CompareResult.EQUAL ≠ .EQUAL ∧ m = .elementwise then CompareResult.EQUAL
              else compareLoop f m
                (if CompareResult.EQUAL = .EQUAL then CompareResult.EQUAL
                  else CompareResult.EQUAL)
                (restPart (c :: cs)) (restPart (c :: cs))) = .EQUAL
            rw [if_neg (by simp), if_pos rfl]
            have hlen := digitRunStep_inr_lengths
              (show startsDig (c :: cs) = true from hd.1)
              (show startsDig (c :: cs) = true from hd.2) hstep
            exact ih (restPart (c :: cs)) m (by omega)
          · rw [if_neg hd, if_neg (lt_irrefl c), if_neg (lt_irrefl c)]
            simp only [List.length_cons] at h
            exact ih cs m (by omega)

theorem compareLoop_antisym : ∀ f (l r : List Char) (m : TotalOrderMode)
    (gz : CompareResult), l.length + r.length < f →
    compareLoop f m gz.inv r l = (compareLoop f m gz l r).inv := by
  intro f
  induction f with
  | zero => intro l r m gz h; omega
  | succ f ih =>
      intro l r m gz h
      cases l with
      | nil =>
          cases r with
          | nil =>
              rw [compareLoop_nil_nil, compareLoop_nil_nil]
              by_cases hm : m = .off <;> simp [hm]
          | cons rc rs =>
              rw [compareLoop_nil_cons, compareLoop_cons_nil]
              rfl
      | cons lc ls =>
          cases r with
          | nil =>
              rw [compareLoop_cons_nil, compareLoop_nil_cons]
              rfl
          | cons rc rs =>
              rw [compareLoop_cons_cons, compareLoop_cons_cons]
              by_cases hd : isDig lc ∧ isDig rc
              · rw [if_pos hd, if_pos ⟨hd.2, hd.1⟩]
                rw [digitRunStep_swap (lc :: ls) (rc :: rs)]
                rcases hq : digitRunStep (lc :: ls) (rc :: rs) with res | ⟨z, l3, r3⟩
                · rfl
                · show (if z.inv ≠ .EQUAL ∧ m = .elementwise then z.inv
                      else compareLoop f m (if gz.inv = .EQUAL then z.inv else gz.inv) r3 l3) =
                    (if z ≠ .EQUAL ∧ m = .elementwise then z
                      else compareLoop f m (if gz = .EQUAL then z else gz) l3 r3).inv
                  by_cases hz : z ≠ .EQUAL ∧ m = .elementwise
                  · rw [if_pos ⟨by simpa using hz.1, hz.2⟩, if_pos hz]
                  · have hz2 : ¬(z.inv ≠ .EQUAL ∧ m = .elementwise) := by
                      intro hc
                      exact hz ⟨by simpa using hc.1, hc.2⟩
                    rw [if_neg hz2, if_neg hz]
                    have harg : (if gz.inv = .EQUAL then z.inv else gz.inv) =
                        (if gz = .EQUAL then z else gz).inv := by
                      by_cases hgz : gz = .EQUAL
                      · subst hgz
                        simp
                      · rw [if_neg hgz, if_neg (by simpa using hgz)]
                    rw [harg]
                    have hlen := digitRunStep_inr_lengths
                      (show startsDig (lc :: ls) = true from hd.1)
                      (show startsDig (rc :: rs) = true from hd.2) hq
                    simp only [List.length_cons] at h hlen
                    exact ih l3 r3 m (if gz = .EQUAL then z else gz) (by omega)
              · rw [if_neg hd, if_neg (fun hc => hd ⟨hc.2, hc.1⟩)]
                rcases lt_trichotomy lc rc with hlt | he | hlt
                · rw [if_pos hlt, if_neg (asymm hlt), if_pos hlt]
                  rfl
                · subst he
                  rw [if_neg (lt_irrefl lc), if_neg (lt_irrefl lc), if_neg (lt_irrefl lc),
                    if_neg (lt_irrefl lc)]
                  simp only [List.length_cons] at h
                  exact ih ls rs m gz (by omega)
                · rw [if_neg (asymm hlt), if_pos hlt, if_pos hlt]
                  rfl

theorem compare_refl (a : List Char) (m : TotalOrderMode) : compare a a m = .EQUAL :=
  compareLoop_refl (a.length + a.length + 1) a m (by omega)

theorem compare_antisym (l r : List Char) (m : TotalOrderMode) :
    compare r l m = (compare l r m).inv := by
  unfold compare
  rw [compareLoop_irrel (r.length + l.length + 1) (l.length + r.length + 1)
    m .EQUAL r l (by omega) (by omega)]
  rw [show CompareResult.EQUAL = CompareResult.EQUAL.inv from rfl]
  exact compareLoop_antisym (l.length + r.length + 1) l r m .EQUAL (by omega)

end Verstr

namespace Verstr

/-! ### Structure of the sort-key scan -/

theorem startsDig_dropWhile_not (s : List Char)
    (h : s.dropWhile (fun c => !isDig c) ≠ []) :
    startsDig (s.dropWhile (fun c => !isDig c)) = true := by
  induction s with
  | nil => simp at h
  | cons c t ih =>
      by_cases hc : isDig c
      · rw [List.dropWhile_cons_of_neg (by simp [hc])]
        simpa [startsDig] using hc
      · rw [List.dropWhile_cons_of_pos (by simp [hc])] at h ⊢
        exact ih h

theorem sortkeyScanCore_irrel : ∀ f₁ f₂ s, s.length < f₁ → s.length < f₂ →
    sortkeyScanCore f₁ s = sortkeyScanCore f₂ s := by
  intro f₁
  induction f₁ with
  | zero => intro f₂ s h; omega
  | succ f ih =>
      intro f₂ s h1 h2
      cases f₂ with
      | zero => omega
      | succ g =>
          simp only [sortkeyScanCore]
          by_cases hr : s.dropWhile (fun c => !isDig c) = []
          · simp [hr]
          · simp only [hr, if_false]
            have hsd : startsDig (s.dropWhile (fun c => !isDig c)) = true :=
              startsDig_dropWhile_not s hr
            have hsuf : restPart (s.dropWhile (fun c => !isDig c)) <:+
                s.dropWhile (fun c => !isDig c) := restPart_suffix _
            have hne : restPart (s.dropWhile (fun c => !isDig c)) ≠
                s.dropWhile (fun c => !isDig c) := by
              intro he
              rw [← he, startsDig_restPart] at hsd
              exact absurd hsd (by decide)
            have hlt : (restPart (s.dropWhile (fun c => !isDig c))).length <
                (s.dropWhile (fun c => !isDig c)).length :=
              suffix_ne_length_lt hsuf hne
            have hle : (s.dropWhile (fun c => !isDig c)).length ≤ s.length :=
              (List.dropWhile_suffix _).length_le
            have heq : ((s.dropWhile (fun c => !isDig c)).dropWhile
                (fun c => c = '0')).dropWhile isDig =
                restPart (s.dropWhile (fun c => !isDig c)) := rfl
            rw [heq, ih g _ (by omega) (by omega)]

theorem sortkeyScan_eq (s : List Char) : sortkeyScan s =
    if s.dropWhile (fun c => !isDig c) = [] then (s.takeWhile (fun c => !isDig c), [])
    else
      (s.takeWhile (fun c => !isDig c) ++
        sortableInteger (dPart (s.dropWhile (fun c => !isDig c))) ++
        (sortkeyScan (restPart (s.dropWhile (fun c => !isDig c)))).1,
       (zPart (s.dropWhile (fun c => !isDig c))).length ::
        (sortkeyScan (restPart (s.dropWhile (fun c => !isDig c)))).2) := by
  unfold sortkeyScan
  conv_lhs => rw [sortkeyScanCore]
  by_cases hr : s.dropWhile (fun c => !isDig c) = []
  · simp [hr]
  · simp only [hr, if_false]
    have hsd : startsDig (s.dropWhile (fun c => !isDig c)) = true :=
      startsDig_dropWhile_not s hr
    have hne : restPart (s.dropWhile (fun c => !isDig c)) ≠
        s.dropWhile (fun c => !isDig c) := by
      intro he
      rw [← he, startsDig_restPart] at hsd
      exact absurd hsd (by decide)
    have hlt : (restPart (s.dropWhile (fun c => !isDig c))).length <
        (s.dropWhile (fun c => !isDig c)).length :=
      suffix_ne_length_lt (restPart_suffix _) hne
    have hle : (s.dropWhile (fun c => !isDig c)).length ≤ s.length :=
      (List.dropWhile_suffix _).length_le
    have heq : ((s.dropWhile (fun c => !isDig c)).dropWhile
        (fun c => c = '0')).dropWhile isDig =
        restPart (s.dropWhile (fun c => !isDig c)) := rfl
    rw [heq, sortkeyScanCore_irrel s.length
      ((restPart (s.dropWhile (fun c => !isDig c))).length + 1) _ (by omega) (by omega)]
    rfl

theorem skey_nil : skey [] = [] := rfl

theorem zcounts_nil : zcounts [] = [] := rfl

theorem skey_cons_nondigit (c : Char) (s : List Char) (h : isDig c = false) :
    skey (c :: s) = c :: skey s := by
  unfold skey
  rw [sortkeyScan_eq (c :: s), sortkeyScan_eq s]
  rw [List.dropWhile_cons_of_pos (by simp [h]), List.takeWhile_cons_of_pos (by simp [h])]
  by_cases hr : s.dropWhile (fun c => !isDig c) = []
  · simp [hr]
  · simp [hr]

theorem zcounts_cons_nondigit (c : Char) (s : List Char) (h : isDig c = false) :
    zcounts (c :: s) = zcounts s := by
  unfold zcounts
  rw [sortkeyScan_eq (c :: s), sortkeyScan_eq s]
  rw [List.dropWhile_cons_of_pos (by simp [h])]
  by_cases hr : s.dropWhile (fun c => !isDig c) = []
  · simp [hr]
  · simp [hr]

theorem skey_digit (s : List Char) (h : startsDig s = true) :
    skey s = sortableInteger (dPart s) ++ skey (restPart s) := by
  obtain ⟨c, cs, rfl⟩ : ∃ c cs, s = c :: cs := by
    cases s with
    | nil => simp [startsDig] at h
    | cons c cs => exact ⟨c, cs, rfl⟩
  have hc : isDig c = true := h
  unfold skey
  rw [sortkeyScan_eq (c :: cs)]
  rw [List.dropWhile_cons_of_neg (by simp [hc]), List.takeWhile_cons_of_neg (by simp [hc])]
  simp

theorem zcounts_digit (s : List Char) (h : startsDig s = true) :
    zcounts s = (zPart s).length :: zcounts (restPart s) := by
  obtain ⟨c, cs, rfl⟩ : ∃ c cs, s = c :: cs := by
    cases s with
    | nil => simp [startsDig] at h
    | cons c cs => exact ⟨c, cs, rfl⟩
  have hc : isDig c = true := h
  unfold zcounts
  rw [sortkeyScan_eq (c :: cs)]
  rw [List.dropWhile_cons_of_neg (by simp [hc])]
  simp

theorem sortableInteger_dPart (s : List Char) :
    sortableInteger (dPart s) = encNat (valBE (dPart s)) :=
  sortableInteger_of_allDig (dPart s) (allDig_dPart s)

theorem skey_digit_head (s : List Char) (h : startsDig s = true) :
    ∃ c cs, skey s = c :: cs ∧ isDig c = true := by
  rw [skey_digit s h, sortableInteger_dPart]
  obtain ⟨c, cs, hct, hcd⟩ := encNat_head_digit (valBE (dPart s))
  exact ⟨c, cs ++ skey (restPart s), by rw [hct]; rfl, hcd⟩

theorem skey_ne_nil (s : List Char) (h : s ≠ []) : skey s ≠ [] := by
  obtain ⟨c, cs, rfl⟩ := List.exists_cons_of_ne_nil h
  by_cases hc : isDig c
  · obtain ⟨c₀, cs₀, hct, _⟩ := skey_digit_head (c :: cs) hc
    rw [hct]
    simp
  · rw [skey_cons_nondigit c cs (by simpa using hc)]
    simp

/-! ### Character comparisons across the digit boundary -/

theorem digit_lt_nondigit {a b : Char} (ha : isDig a = true) (hb : isDig b = false)
    (hab : a < b) : ∀ c, isDig c = true → c < b := by
  intro c hc
  have h1 := (isDig_iff a).1 ha
  have h2 := (isDig_iff c).1 hc
  have h3 : ¬(48 ≤ b.toNat ∧ b.toNat ≤ 57) := by
    intro hcon
    rw [(isDig_iff b).2 hcon] at hb
    exact absurd hb (by decide)
  rw [char_lt_iff] at hab ⊢
  omega

theorem nondigit_lt_digit {a b : Char} (ha : isDig a = false) (hb : isDig b = true)
    (hab : a < b) : ∀ c, isDig c = true → a < c := by
  intro c hc
  have h1 := (isDig_iff b).1 hb
  have h2 := (isDig_iff c).1 hc
  have h3 : ¬(48 ≤ a.toNat ∧ a.toNat ≤ 57) := by
    intro hcon
    rw [(isDig_iff a).2 hcon] at ha
    exact absurd ha (by decide)
  rw [char_lt_iff] at hab ⊢
  omega

end Verstr

namespace Verstr

/-! ### Agreement of comparator and sort keys, default mode -/

theorem strCmp_skey_head_lt (lc rc : Char) (ls rs : List Char) (hlt : lc < rc)
    (hnd : ¬(isDig lc = true ∧ isDig rc = true)) :
    strCmp (skey (lc :: ls)) (skey (rc :: rs)) = .RIGHT := by
  by_cases hl : isDig lc
  · have hr : isDig rc = false := by
      cases hrc : isDig rc
      · rfl
      · exact absurd ⟨hl, hrc⟩ hnd
    obtain ⟨c, cs, hct, hcd⟩ := skey_digit_head (lc :: ls) hl
    rw [hct, skey_cons_nondigit rc rs hr, strCmp_cons_cons,
      if_pos (digit_lt_nondigit hl hr hlt c hcd)]
  · by_cases hr : isDig rc
    · obtain ⟨c, cs, hct, hcd⟩ := skey_digit_head (rc :: rs) hr
      rw [hct, skey_cons_nondigit lc ls (by simpa using hl), strCmp_cons_cons,
        if_pos (nondigit_lt_digit (by simpa using hl) hr hlt c hcd)]
    · rw [skey_cons_nondigit lc ls (by simpa using hl),
        skey_cons_nondigit rc rs (by simpa using hr), strCmp_cons_cons, if_pos hlt]

theorem compareLoop_off_agree : ∀ f (l r : List Char) (gz : CompareResult),
    l.length + r.length < f →
    compareLoop f .off gz l r = strCmp (skey l) (skey r) := by
  intro f
  induction f with
  | zero => intro l r gz h; omega
  | succ f ih =>
      intro l r gz h
      cases l with
      | nil =>
          cases r with
          | nil =>
              rw [compareLoop_nil_nil, skey_nil]
              simp
          | cons rc rs =>
              rw [compareLoop_nil_cons, skey_nil]
              obtain ⟨c, cs, hct⟩ :=
                List.exists_cons_of_ne_nil (skey_ne_nil (rc :: rs) (by simp))
              rw [hct, strCmp_nil_cons]
      | cons lc ls =>
          cases r with
          | nil =>
              rw [compareLoop_cons_nil, skey_nil]
              obtain ⟨c, cs, hct⟩ :=
                List.exists_cons_of_ne_nil (skey_ne_nil (lc :: ls) (by simp))
              rw [hct, strCmp_cons_nil]
          | cons rc rs =>
              rw [compareLoop_cons_cons]
              by_cases hd : isDig lc ∧ isDig rc
              · rw [if_pos hd]
                have hsl : startsDig (lc :: ls) = true := hd.1
                have hsr : startsDig (rc :: rs) = true := hd.2
                rw [skey_digit _ hsl, skey_digit _ hsr, sortableInteger_dPart,
                  sortableInteger_dPart]
                rcases lt_trichotomy (valBE (dPart (lc :: ls)))
                  (valBE (dPart (rc :: rs))) with hv | hv | hv
                · rw [digitRunStep_lt _ _ hv, encNat_strCmp _ _ hv _ _]
                · have hstep := digitRunStep_eq_val (lc :: ls) (rc :: rs) hv
                  rw [hstep]
                  show (if sigOf (zPart (lc :: ls)).length (zPart (rc :: rs)).length ≠
                        .EQUAL ∧ TotalOrderMode.off = .elementwise then
                      sigOf (zPart (lc :: ls)).length (zPart (rc :: rs)).length
                    else compareLoop f .off
                      (if gz = .EQUAL then
                        sigOf (zPart (lc :: ls)).length (zPart (rc :: rs)).length else gz)
                      (restPart (lc :: ls)) (restPart (rc :: rs))) = _
                  rw [if_neg (by simp)]
                  rw [hv, strCmp_append_cancel]
                  have hlen := digitRunStep_inr_lengths hsl hsr hstep
                  simp only [List.length_cons] at h hlen
                  exact ih _ _ _ (by omega)
                · rw [digitRunStep_gt _ _ hv, strCmp_swap, encNat_strCmp _ _ hv _ _]
                  rfl
              · rw [if_neg hd]
                rcases lt_trichotomy lc rc with hlt | he | hlt
                · rw [if_neg (asymm hlt), if_pos hlt,
                    strCmp_skey_head_lt lc rc ls rs hlt hd]
                · subst he
                  have hnd2 : isDig lc = false := by
                    cases hq : isDig lc
                    · rfl
                    · exact absurd ⟨hq, hq⟩ hd
                  rw [if_neg (lt_irrefl lc), if_neg (lt_irrefl lc),
                    skey_cons_nondigit lc ls hnd2, skey_cons_nondigit lc rs hnd2,
                    strCmp_cons_self]
                  simp only [List.length_cons] at h
                  exact ih ls rs gz (by omega)
                · rw [if_pos hlt, strCmp_swap,
                    strCmp_skey_head_lt rc lc rs ls hlt (fun hc => hd ⟨hc.2, hc.1⟩)]
                  rfl

theorem compare_off_agree (l r : List Char) :
    compare l r .off = strCmp (skey l) (skey r) :=
  compareLoop_off_agree (l.length + r.length + 1) l r .EQUAL (by omega)

end Verstr

namespace Verstr

/-! ### The total-order key suffix -/

theorem firstSig_nil_left (bs : List Nat) : firstSig [] bs = .EQUAL := by
  cases bs <;> rfl

theorem firstSig_cons (a : Nat) (as : List Nat) (b : Nat) (bs : List Nat) :
    firstSig (a :: as) (b :: bs) =
      if sigOf a b ≠ .EQUAL then sigOf a b else firstSig as bs := rfl

theorem markers_strCmp : ∀ (as bs : List Nat), as.length = bs.length →
    strCmp ((as.map markerEnc).flatten) ((bs.map markerEnc).flatten) =
      firstSig as bs := by
  intro as
  induction as with
  | nil =>
      intro bs hlen
      have : bs = [] := List.eq_nil_of_length_eq_zero (by simpa using hlen.symm)
      subst this
      rfl
  | cons a as ih =>
      intro bs hlen
      cases bs with
      | nil => simp at hlen
      | cons b bs =>
          simp only [List.map_cons, List.flatten_cons, firstSig_cons]
          rcases lt_trichotomy a b with hlt | he | hlt
          · have hs : sigOf a b = .LEFT := by
              unfold sigOf
              rw [if_neg (by omega), if_pos hlt]
            rw [strCmp_swap, firstDiffLt_strCmp (markerEnc_firstDiffLt hlt) _ _, hs,
              if_pos (by decide)]
            rfl
          · subst he
            rw [sigOf_self, if_neg (by simp), strCmp_append_cancel]
            exact ih bs (by simpa using hlen)
          · have hs : sigOf a b = .RIGHT := by
              unfold sigOf
              rw [if_pos hlt]
            rw [firstDiffLt_strCmp (markerEnc_firstDiffLt hlt) _ _, hs, if_pos (by decide)]

theorem markers_head (zs : List Nat) :
    (zs.map markerEnc).flatten = [] ∨ ∃ t, (zs.map markerEnc).flatten = '-' :: t := by
  cases zs with
  | nil => left; rfl
  | cons z zt =>
      right
      obtain ⟨t, ht⟩ := markerEnc_head z
      refine ⟨t ++ (zt.map markerEnc).flatten, ?_⟩
      simp only [List.map_cons, List.flatten_cons, ht, List.cons_append]

theorem escapeNul_nil : escapeNul [] = [] := rfl

theorem escapeNul_cons (c : Char) (s : List Char) :
    escapeNul (c :: s) =
      (if c = '\x00' then ['\x00', '~'] else [c]) ++ escapeNul s := by
  unfold escapeNul
  rw [List.flatMap_cons]

theorem strCmp_dash_head (u t : List Char) :
    (u = [] ∨ ∃ w, u = '-' :: w) → strCmp u ('~' :: t) = .RIGHT := by
  rintro (rfl | ⟨w, rfl⟩)
  · rfl
  · rw [strCmp_cons_cons, if_pos (by decide)]

theorem escaped_key_cmp : ∀ (x y u v : List Char),
    (u = [] ∨ ∃ w, u = '-' :: w) → (v = [] ∨ ∃ w, v = '-' :: w) →
    strCmp x y ≠ .EQUAL →
    strCmp (escapeNul x ++ '\x00' :: u) (escapeNul y ++ '\x00' :: v) = strCmp x y := by
  intro x
  induction x with
  | nil =>
      intro y u v hu _ hne
      cases y with
      | nil => exact absurd rfl hne
      | cons d ys =>
          rw [strCmp_nil_cons, escapeNul_nil, escapeNul_cons, List.nil_append]
          by_cases hd : d = '\x00'
          · subst hd
            rw [if_pos rfl]
            show strCmp ('\x00' :: u) ('\x00' :: ('~' :: (escapeNul ys ++ '\x00' :: v))) = _
            rw [strCmp_cons_self]
            exact strCmp_dash_head u _ hu
          · rw [if_neg hd]
            show strCmp ('\x00' :: u) (d :: (escapeNul ys ++ '\x00' :: v)) = _
            rw [strCmp_cons_cons, if_pos (nul_lt_of_ne d hd)]
  | cons c xs ih =>
      intro y u v hu hv hne
      cases y with
      | nil =>
          rw [strCmp_cons_nil, escapeNul_nil, escapeNul_cons, List.nil_append]
          by_cases hc : c = '\x00'
          · subst hc
            rw [if_pos rfl]
            show strCmp ('\x00' :: ('~' :: (escapeNul xs ++ '\x00' :: u))) ('\x00' :: v) = _
            rw [strCmp_cons_self]
            rw [strCmp_swap, strCmp_dash_head v _ hv]
            rfl
          · rw [if_neg hc]
            show strCmp (c :: (escapeNul xs ++ '\x00' :: u)) ('\x00' :: v) = _
            rw [strCmp_cons_cons, if_neg (asymm (nul_lt_of_ne c hc)),
              if_pos (nul_lt_of_ne c hc)]
      | cons d ys =>
          by_cases hcd : c = d
          · subst hcd
            rw [escapeNul_cons, escapeNul_cons, List.append_assoc, List.append_assoc,
              strCmp_append_cancel]
            rw [strCmp_cons_self] at hne ⊢
            exact ih ys u v hu hv hne
          · rw [escapeNul_cons, escapeNul_cons]
            have hgoal : strCmp (c :: xs) (d :: ys) =
                if c < d then .RIGHT else .LEFT := by
              rw [strCmp_cons_cons]
              rcases lt_trichotomy c d with hlt | he | hlt
              · rw [if_pos hlt, if_pos hlt]
              · exact absurd he hcd
              · rw [if_neg (asymm hlt), if_pos hlt, if_neg (asymm hlt)]
            rw [hgoal]
            by_cases hc : c = '\x00'
            · subst hc
              have hd : d ≠ '\x00' := fun he => hcd he.symm
              rw [if_pos rfl, if_neg hd, if_pos (nul_lt_of_ne d hd)]
              show strCmp ('\x00' :: ('~' :: (escapeNul xs ++ '\x00' :: u)))
                (d :: (escapeNul ys ++ '\x00' :: v)) = _
              rw [strCmp_cons_cons, if_pos (nul_lt_of_ne d hd)]
            · by_cases hd : d = '\x00'
              · subst hd
                rw [if_neg hc, if_pos rfl, if_neg (asymm (nul_lt_of_ne c hc))]
                show strCmp (c :: (escapeNul xs ++ '\x00' :: u))
                  ('\x00' :: ('~' :: (escapeNul ys ++ '\x00' :: v))) = _
                rw [strCmp_cons_cons, if_neg (asymm (nul_lt_of_ne c hc)),
                  if_pos (nul_lt_of_ne c hc)]
              · rw [if_neg hc, if_neg hd]
                show strCmp (c :: (escapeNul xs ++ '\x00' :: u))
                  (d :: (escapeNul ys ++ '\x00' :: v)) = _
                rw [strCmp_cons_cons]
                rcases lt_trichotomy c d with hlt | he | hlt
                · rw [if_pos hlt, if_pos hlt]
                · exact absurd he hcd
                · rw [if_neg (asymm hlt), if_pos hlt, if_neg (asymm hlt)]

end Verstr

namespace Verstr

/-! ### Total-order keys -/

theorem sortkey_false_eq (s : List Char) : sortkey s false = skey s := rfl

theorem sortkey_true_eq (s : List Char) : sortkey s true =
    escapeNul (skey s) ++ '\x00' :: ((zcounts s).map markerEnc).flatten := rfl

theorem skey_eq_zcounts_len : ∀ n (a b : List Char), a.length + b.length ≤ n →
    skey a = skey b → (zcounts a).length = (zcounts b).length := by
  intro n
  induction n with
  | zero =>
      intro a b hn he
      have ha : a = [] := by
        cases a
        · rfl
        · simp at hn
      have hb : b = [] := by
        cases b
        · rfl
        · simp at hn
      subst ha hb
      rfl
  | succ n ih =>
      intro a b hn he
      cases a with
      | nil =>
          cases b with
          | nil => rfl
          | cons d bs =>
              rw [skey_nil] at he
              exact absurd he.symm (skey_ne_nil (d :: bs) (by simp))
      | cons c as =>
          cases b with
          | nil =>
              rw [skey_nil] at he
              exact absurd he (skey_ne_nil (c :: as) (by simp))
          | cons d bs =>
              by_cases hc : isDig c
              · by_cases hd : isDig d
                · -- both digit runs
                  have hsl : startsDig (c :: as) = true := hc
                  have hsr : startsDig (d :: bs) = true := hd
                  rw [skey_digit _ hsl, skey_digit _ hsr, sortableInteger_dPart,
                    sortableInteger_dPart] at he
                  have hval : valBE (dPart (c :: as)) = valBE (dPart (d :: bs)) := by
                    by_contra hne
                    rcases Nat.lt_or_ge (valBE (dPart (c :: as)))
                      (valBE (dPart (d :: bs))) with hlt | hge
                    · have := encNat_strCmp _ _ hlt (skey (restPart (c :: as)))
                        (skey (restPart (d :: bs)))
                      rw [he, (strCmp_eq_EQUAL_iff _ _).2 rfl] at this
                      exact absurd this (by decide)
                    · have hlt : valBE (dPart (d :: bs)) < valBE (dPart (c :: as)) := by
                        omega
                      have := encNat_strCmp _ _ hlt (skey (restPart (d :: bs)))
                        (skey (restPart (c :: as)))
                      rw [← he, (strCmp_eq_EQUAL_iff _ _).2 rfl] at this
                      exact absurd this (by decide)
                  rw [hval] at he
                  have htail : skey (restPart (c :: as)) = skey (restPart (d :: bs)) :=
                    List.append_cancel_left he
                  have hlenl : (restPart (c :: as)).length < (c :: as).length := by
                    apply suffix_ne_length_lt (restPart_suffix _)
                    intro hcon
                    rw [← hcon, startsDig_restPart] at hsl
                    exact absurd hsl (by decide)
                  have hlenr : (restPart (d :: bs)).length < (d :: bs).length := by
                    apply suffix_ne_length_lt (restPart_suffix _)
                    intro hcon
                    rw [← hcon, startsDig_restPart] at hsr
                    exact absurd hsr (by decide)
                  rw [zcounts_digit _ hsl, zcounts_digit _ hsr]
                  simp only [List.length_cons] at hn hlenl hlenr ⊢
                  have := ih (restPart (c :: as)) (restPart (d :: bs)) (by omega) htail
                  omega
                · -- digit head against non-digit head: keys cannot agree
                  obtain ⟨c₀, cs₀, hct, hcd⟩ := skey_digit_head (c :: as) hc
                  rw [hct, skey_cons_nondigit d bs (by simpa using hd)] at he
                  have : c₀ = d := by
                    have := congrArg List.head? he
                    simpa using this
                  rw [this] at hcd
                  rw [hcd] at hd
                  exact absurd rfl hd
              · by_cases hd : isDig d
                · obtain ⟨d₀, ds₀, hdt, hdd⟩ := skey_digit_head (d :: bs) hd
                  rw [hdt, skey_cons_nondigit c as (by simpa using hc)] at he
                  have : c = d₀ := by
                    have := congrArg List.head? he
                    simpa using this
                  rw [← this] at hdd
                  exact absurd hdd (by simpa using hc)
                · rw [skey_cons_nondigit c as (by simpa using hc),
                    skey_cons_nondigit d bs (by simpa using hd)] at he
                  have htail : skey as = skey bs := by
                    have := congrArg List.tail he
                    simpa using this
                  rw [zcounts_cons_nondigit c as (by simpa using hc),
                    zcounts_cons_nondigit d bs (by simpa using hd)]
                  simp only [List.length_cons] at hn
                  exact ih as bs (by omega) htail

theorem strCmp_append_cons_cancel (p : List Char) (c : Char) (x y : List Char) :
    strCmp (p ++ c :: x) (p ++ c :: y) = strCmp x y := by
  rw [strCmp_append_cancel, strCmp_cons_self]

theorem sortkey_true_strCmp (a b : List Char) :
    strCmp (sortkey a true) (sortkey b true) =
      if skey a = skey b then firstSig (zcounts a) (zcounts b)
      else strCmp (skey a) (skey b) := by
  rw [sortkey_true_eq, sortkey_true_eq]
  by_cases he : skey a = skey b
  · rw [if_pos he, he, strCmp_append_cons_cancel]
    exact markers_strCmp _ _
      (skey_eq_zcounts_len (a.length + b.length) a b (by omega) he)
  · rw [if_neg he]
    exact escaped_key_cmp (skey a) (skey b) _ _ (markers_head _) (markers_head _)
      (fun hc => he ((strCmp_eq_EQUAL_iff _ _).1 hc))

end Verstr

namespace Verstr

/-! ### The deferred total order defers the first zero-padding signal -/

theorem compareLoop_deferred_eq : ∀ f (l r : List Char) (gz : CompareResult),
    l.length + r.length < f →
    compareLoop f .deferred gz l r =
      if compareLoop f .off gz l r = .EQUAL then
        (if gz = .EQUAL then firstSig (zcounts l) (zcounts r) else gz)
      else compareLoop f .off gz l r := by
  intro f
  induction f with
  | zero => intro l r gz h; omega
  | succ f ih =>
      intro l r gz h
      cases l with
      | nil =>
          cases r with
          | nil =>
              rw [compareLoop_nil_nil, compareLoop_nil_nil, if_neg (by decide),
                if_pos rfl, if_pos rfl, zcounts_nil, firstSig_nil_left]
              by_cases hgz : gz = .EQUAL
              · rw [if_pos hgz, hgz]
              · rw [if_neg hgz]
          | cons rc rs =>
              rw [compareLoop_nil_cons, compareLoop_nil_cons, if_neg (by decide)]
      | cons lc ls =>
          cases r with
          | nil =>
              rw [compareLoop_cons_nil, compareLoop_cons_nil, if_neg (by decide)]
          | cons rc rs =>
              by_cases hd : isDig lc ∧ isDig rc
              · have hsl : startsDig (lc :: ls) = true := hd.1
                have hsr : startsDig (rc :: rs) = true := hd.2
                rcases lt_trichotomy (valBE (dPart (lc :: ls)))
                  (valBE (dPart (rc :: rs))) with hv | hv | hv
                · have hoff : compareLoop (f + 1) .off gz (lc :: ls) (rc :: rs) =
                      .RIGHT := by
                    rw [compareLoop_cons_cons, if_pos hd, digitRunStep_lt _ _ hv]
                  have hdef : compareLoop (f + 1) .deferred gz (lc :: ls) (rc :: rs) =
                      .RIGHT := by
                    rw [compareLoop_cons_cons, if_pos hd, digitRunStep_lt _ _ hv]
                  rw [hoff, hdef, if_neg (by decide)]
                · have hstep := digitRunStep_eq_val (lc :: ls) (rc :: rs) hv
                  have hoff : compareLoop (f + 1) .off gz (lc :: ls) (rc :: rs) =
                      compareLoop f .off
                        (if gz = .EQUAL then
                          sigOf (zPart (lc :: ls)).length (zPart (rc :: rs)).length
                        else gz)
                        (restPart (lc :: ls)) (restPart (rc :: rs)) := by
                    rw [compareLoop_cons_cons, if_pos hd, hstep]
                    show (if sigOf (zPart (lc :: ls)).length (zPart (rc :: rs)).length ≠
                          .EQUAL ∧ TotalOrderMode.off = .elementwise then _ else _) = _
                    rw [if_neg (by simp)]
                  have hdef : compareLoop (f + 1) .deferred gz (lc :: ls) (rc :: rs) =
                      compareLoop f .deferred
                        (if gz = .EQUAL then
                          sigOf (zPart (lc :: ls)).length (zPart (rc :: rs)).length
                        else gz)
                        (restPart (lc :: ls)) (restPart (rc :: rs)) := by
                    rw [compareLoop_cons_cons, if_pos hd, hstep]
                    show (if sigOf (zPart (lc :: ls)).length (zPart (rc :: rs)).length ≠
                          .EQUAL ∧ TotalOrderMode.deferred = .elementwise then _ else _) = _
                    rw [if_neg (by simp)]
                  have hlen := digitRunStep_inr_lengths hsl hsr hstep
                  simp only [List.length_cons] at h hlen
                  rw [hdef, hoff, ih _ _ _ (by omega),
                    zcounts_digit _ hsl, zcounts_digit _ hsr, firstSig_cons]
                  by_cases hOE : compareLoop f .off
                      (if gz = .EQUAL then
                        sigOf (zPart (lc :: ls)).length (zPart (rc :: rs)).length
                      else gz)
                      (restPart (lc :: ls)) (restPart (rc :: rs)) = .EQUAL
                  · rw [if_pos hOE, if_pos hOE]
                    by_cases hgz : gz = .EQUAL
                    · rw [if_pos hgz, if_pos hgz]
                      by_cases hsig : sigOf (zPart (lc :: ls)).length
                          (zPart (rc :: rs)).length = .EQUAL
                      · rw [hsig, if_pos rfl, if_neg (by simp)]
                      · rw [if_neg (fun hc => hsig hc), if_pos hsig]
                    · rw [if_neg hgz, if_neg hgz, if_neg hgz]
                  · rw [if_neg hOE, if_neg hOE]
                · have hoff : compareLoop (f + 1) .off gz (lc :: ls) (rc :: rs) =
                      .LEFT := by
                    rw [compareLoop_cons_cons, if_pos hd, digitRunStep_gt _ _ hv]
                  have hdef : compareLoop (f + 1) .deferred gz (lc :: ls) (rc :: rs) =
                      .LEFT := by
                    rw [compareLoop_cons_cons, if_pos hd, digitRunStep_gt _ _ hv]
                  rw [hoff, hdef, if_neg (by decide)]
              · rcases lt_trichotomy lc rc with hlt | he | hlt
                · have hoff : compareLoop (f + 1) .off gz (lc :: ls) (rc :: rs) =
                      .RIGHT := by
                    rw [compareLoop_cons_cons, if_neg hd, if_neg (asymm hlt), if_pos hlt]
                  have hdef : compareLoop (f + 1) .deferred gz (lc :: ls) (rc :: rs) =
                      .RIGHT := by
                    rw [compareLoop_cons_cons, if_neg hd, if_neg (asymm hlt), if_pos hlt]
                  rw [hoff, hdef, if_neg (by decide)]
                · subst he
                  have hnd : isDig lc = false := by
                    cases hq : isDig lc
                    · rfl
                    · exact absurd ⟨hq, hq⟩ hd
                  have hoff : compareLoop (f + 1) .off gz (lc :: ls) (lc :: rs) =
                      compareLoop f .off gz ls rs := by
                    rw [compareLoop_cons_cons, if_neg hd, if_neg (lt_irrefl lc),
                      if_neg (lt_irrefl lc)]
                  have hdef : compareLoop (f + 1) .deferred gz (lc :: ls) (lc :: rs) =
                      compareLoop f .deferred gz ls rs := by
                    rw [compareLoop_cons_cons, if_neg hd, if_neg (lt_irrefl lc),
                      if_neg (lt_irrefl lc)]
                  simp only [List.length_cons] at h
                  rw [hdef, hoff, ih ls rs gz (by omega),
                    zcounts_cons_nondigit lc ls hnd, zcounts_cons_nondigit lc rs hnd]
                · have hoff : compareLoop (f + 1) .off gz (lc :: ls) (rc :: rs) =
                      .LEFT := by
                    rw [compareLoop_cons_cons, if_neg hd, if_pos hlt]
                  have hdef : compareLoop (f + 1) .deferred gz (lc :: ls) (rc :: rs) =
                      .LEFT := by
                    rw [compareLoop_cons_cons, if_neg hd, if_pos hlt]
                  rw [hoff, hdef, if_neg (by decide)]

theorem compare_deferred_agree (a b : List Char) :
    compare a b .deferred = strCmp (sortkey a true) (sortkey b true) := by
  rw [sortkey_true_strCmp]
  have hA := compareLoop_deferred_eq (a.length + b.length + 1) a b .EQUAL (by omega)
  have hoff : compareLoop (a.length + b.length + 1) .off .EQUAL a b =
      strCmp (skey a) (skey b) :=
    compareLoop_off_agree (a.length + b.length + 1) a b .EQUAL (by omega)
  show compareLoop (a.length + b.length + 1) .deferred .EQUAL a b = _
  rw [hA, hoff, if_pos rfl]
  by_cases he : skey a = skey b
  · rw [if_pos ((strCmp_eq_EQUAL_iff _ _).2 he), if_pos he]
  · rw [if_neg (fun hc => he ((strCmp_eq_EQUAL_iff _ _).1 hc)), if_neg he]

theorem compare_flag_agree (a b : List Char) (t : Bool) :
    compare a b (modeOfFlag t) = strCmp (sortkey a t) (sortkey b t) := by
  cases t
  · exact compare_off_agree a b
  · exact compare_deferred_agree a b

end Verstr

namespace Verstr

/-! ### Per-run zero-padding normalization -/

theorem dropWhile_isDig_eq_restPart : ∀ x : List Char, x.dropWhile isDig = restPart x := by
  intro x
  induction x with
  | nil => rfl
  | cons c t ih =>
      by_cases hc : isDig c
      · rw [List.dropWhile_cons_of_pos hc]
        by_cases h0 : c = '0'
        · subst h0
          unfold restPart
          rw [List.dropWhile_cons_of_pos (by simp)]
          exact ih
        · unfold restPart
          rw [List.dropWhile_cons_of_neg (by simpa using h0),
            List.dropWhile_cons_of_pos hc]
      · rw [List.dropWhile_cons_of_neg (by simpa using hc)]
        unfold restPart
        have hc0 : ¬ c = '0' := by
          intro he
          rw [he] at hc
          exact hc (by decide)
        rw [List.dropWhile_cons_of_neg (by simpa using hc0),
          List.dropWhile_cons_of_neg (by simpa using hc)]

end Verstr

namespace Verstr

theorem takeWhile_isDig_dropZero : ∀ x : List Char,
    (x.takeWhile isDig).dropWhile (fun c => c = '0') = dPart x := by
  intro x
  induction x with
  | nil => rfl
  | cons c t ih =>
      by_cases hc : isDig c
      · rw [List.takeWhile_cons_of_pos hc]
        by_cases h0 : c = '0'
        · subst h0
          rw [List.dropWhile_cons_of_pos (by simp)]
          unfold dPart
          rw [List.dropWhile_cons_of_pos (by simp)]
          exact ih
        · rw [List.dropWhile_cons_of_neg (by simpa using h0)]
          unfold dPart
          rw [List.dropWhile_cons_of_neg (by simpa using h0),
            List.takeWhile_cons_of_pos hc]
      · rw [List.takeWhile_cons_of_neg (by simpa using hc), List.dropWhile_nil]
        have hc0 : ¬ c = '0' := by
          intro he
          rw [he] at hc
          exact hc (by decide)
        unfold dPart
        rw [List.dropWhile_cons_of_neg (by simpa using hc0),
          List.takeWhile_cons_of_neg (by simpa using hc)]

theorem normRunsCore_irrel : ∀ f₁ f₂ s, s.length < f₁ → s.length < f₂ →
    normRunsCore f₁ s = normRunsCore f₂ s := by
  intro f₁
  induction f₁ with
  | zero => intro f₂ s h; omega
  | succ f ih =>
      intro f₂ s h1 h2
      cases f₂ with
      | zero => omega
      | succ g =>
          simp only [normRunsCore]
          by_cases hr : s.dropWhile (fun c => !isDig c) = []
          · simp [hr]
          · simp only [hr, if_false]
            have hsd : startsDig (s.dropWhile (fun c => !isDig c)) = true :=
              startsDig_dropWhile_not s hr
            have hne : restPart (s.dropWhile (fun c => !isDig c)) ≠
                s.dropWhile (fun c => !isDig c) := by
              intro he
              rw [← he, startsDig_restPart] at hsd
              exact absurd hsd (by decide)
            have hlt : (restPart (s.dropWhile (fun c => !isDig c))).length <
                (s.dropWhile (fun c => !isDig c)).length :=
              suffix_ne_length_lt (restPart_suffix _) hne
            have hle : (s.dropWhile (fun c => !isDig c)).length ≤ s.length :=
              (List.dropWhile_suffix _).length_le
            rw [dropWhile_isDig_eq_restPart, ih g _ (by omega) (by omega)]

theorem normRuns_eq (s : List Char) : normRuns s =
    if s.dropWhile (fun c => !isDig c) = [] then s.takeWhile (fun c => !isDig c)
    else
      s.takeWhile (fun c => !isDig c) ++
        (if dPart (s.dropWhile (fun c => !isDig c)) = [] then ['0']
          else dPart (s.dropWhile (fun c => !isDig c))) ++
        normRuns (restPart (s.dropWhile (fun c => !isDig c))) := by
  unfold normRuns
  conv_lhs => rw [normRunsCore]
  by_cases hr : s.dropWhile (fun c => !isDig c) = []
  · simp [hr]
  · simp only [hr, if_false]
    have hsd : startsDig (s.dropWhile (fun c => !isDig c)) = true :=
      startsDig_dropWhile_not s hr
    have hne : restPart (s.dropWhile (fun c => !isDig c)) ≠
        s.dropWhile (fun c => !isDig c) := by
      intro he
      rw [← he, startsDig_restPart] at hsd
      exact absurd hsd (by decide)
    have hlt : (restPart (s.dropWhile (fun c => !isDig c))).length <
        (s.dropWhile (fun c => !isDig c)).length :=
      suffix_ne_length_lt (restPart_suffix _) hne
    have hle : (s.dropWhile (fun c => !isDig c)).length ≤ s.length :=
      (List.dropWhile_suffix _).length_le
    rw [dropWhile_isDig_eq_restPart, takeWhile_isDig_dropZero,
      normRunsCore_irrel s.length
        ((restPart (s.dropWhile (fun c => !isDig c))).length + 1) _
        (by omega) (by omega)]

end Verstr

namespace Verstr

theorem takeWhile_eq_self_of_dropWhile_nil (p : Char → Bool) (s : List Char)
    (h : s.dropWhile p = []) : s.takeWhile p = s := by
  have := List.takeWhile_append_dropWhile (p := p) (l := s)
  rw [h, List.append_nil] at this
  exact this

theorem takeWhile_isDig_not_starts (X : List Char) (h : startsDig X = false) :
    X.takeWhile isDig = [] := by
  cases X with
  | nil => rfl
  | cons c t =>
      rw [List.takeWhile_cons_of_neg]
      simpa [startsDig] using h

theorem dropWhile_isDig_not_starts (X : List Char) (h : startsDig X = false) :
    X.dropWhile isDig = X := by
  cases X with
  | nil => rfl
  | cons c t =>
      rw [List.dropWhile_cons_of_neg]
      simpa [startsDig] using h

theorem dropWhile_zero_not_starts (X : List Char) (h : startsDig X = false) :
    X.dropWhile (fun c => c = '0') = X := by
  cases X with
  | nil => rfl
  | cons c t =>
      have hc : isDig c = false := by simpa [startsDig] using h
      rw [List.dropWhile_cons_of_neg]
      simp only [decide_eq_true_eq]
      intro he
      rw [he] at hc
      exact absurd hc (by decide)

theorem takeWhile_isDig_append (d X : List Char) (h : allDig d = true) :
    (d ++ X).takeWhile isDig = d ++ X.takeWhile isDig := by
  induction d with
  | nil => rfl
  | cons c t ih =>
      simp only [allDig, List.all_cons, Bool.and_eq_true] at h
      rw [List.cons_append, List.takeWhile_cons_of_pos h.1, List.cons_append,
        ih (by simpa [allDig] using h.2)]

theorem dropWhile_isDig_append (d X : List Char) (h : allDig d = true) :
    (d ++ X).dropWhile isDig = X.dropWhile isDig := by
  induction d with
  | nil => rfl
  | cons c t ih =>
      simp only [allDig, List.all_cons, Bool.and_eq_true] at h
      rw [List.cons_append, List.dropWhile_cons_of_pos h.1,
        ih (by simpa [allDig] using h.2)]

theorem skey_text_append (txt u : List Char)
    (h : txt.all (fun c => !isDig c) = true) :
    skey (txt ++ u) = txt ++ skey u := by
  induction txt with
  | nil => rfl
  | cons c t ih =>
      simp only [List.all_cons, Bool.and_eq_true] at h
      rw [List.cons_append, skey_cons_nondigit c (t ++ u) (by simpa using h.1),
        ih h.2, List.cons_append]

theorem startsDig_takeWhile_not (x : List Char) :
    startsDig (x.takeWhile (fun c => !isDig c)) = false := by
  cases x with
  | nil => rfl
  | cons c t =>
      by_cases hc : isDig c
      · rw [List.takeWhile_cons_of_neg (by simp [hc])]
        rfl
      · rw [List.takeWhile_cons_of_pos (by simp [hc])]
        simpa [startsDig] using hc

theorem startsDig_normRuns (x : List Char) (h : startsDig x = false) :
    startsDig (normRuns x) = false := by
  rw [normRuns_eq]
  by_cases hr : x.dropWhile (fun c => !isDig c) = []
  · rw [if_pos hr]
    exact startsDig_takeWhile_not x
  · rw [if_neg hr]
    cases x with
    | nil => simp at hr
    | cons c t =>
        have hc : isDig c = false := by simpa [startsDig] using h
        rw [List.takeWhile_cons_of_pos (by simp [hc]), List.cons_append,
          List.cons_append]
        simpa [startsDig] using hc

theorem skey_canon (d X : List Char) (hd : allDig d = true)
    (hz : d.head? ≠ some '0') (hX : startsDig X = false) :
    skey ((if d = [] then ['0'] else d) ++ X) = sortableInteger d ++ skey X := by
  by_cases hnil : d = []
  · subst hnil
    rw [if_pos rfl]
    have hstep := skey_digit ('0' :: X) (by rfl)
    have hdp : dPart ('0' :: X) = [] := by
      unfold dPart
      rw [List.dropWhile_cons_of_pos (by simp), dropWhile_zero_not_starts X hX]
      exact takeWhile_isDig_not_starts X hX
    have hrp : restPart ('0' :: X) = X := by
      unfold restPart
      rw [List.dropWhile_cons_of_pos (by simp), dropWhile_zero_not_starts X hX]
      exact dropWhile_isDig_not_starts X hX
    rw [List.singleton_append, hstep, hdp, hrp]
  · obtain ⟨c, t, rfl⟩ := List.exists_cons_of_ne_nil hnil
    have hct : isDig c = true ∧ allDig t = true := by
      simpa [allDig] using hd
    have hc0 : ¬ c = '0' := by
      intro he
      exact hz (by rw [he]; rfl)
    have hstep := skey_digit (c :: (t ++ X)) (by simpa [startsDig] using hct.1)
    have hdrop : (c :: (t ++ X)).dropWhile (fun c => c = '0') = c :: (t ++ X) := by
      rw [List.dropWhile_cons_of_neg]
      simpa using hc0
    have hdp : dPart (c :: (t ++ X)) = c :: t := by
      unfold dPart
      rw [hdrop, List.takeWhile_cons_of_pos hct.1,
        takeWhile_isDig_append t X hct.2,
        takeWhile_isDig_not_starts X hX, List.append_nil]
    have hrp : restPart (c :: (t ++ X)) = X := by
      unfold restPart
      rw [hdrop, List.dropWhile_cons_of_pos hct.1,
        dropWhile_isDig_append t X hct.2,
        dropWhile_isDig_not_starts X hX]
    rw [if_neg hnil, List.cons_append, hstep, hdp, hrp]

theorem skey_normRuns_aux : ∀ n s, s.length ≤ n → skey (normRuns s) = skey s := by
  intro n
  induction n with
  | zero =>
      intro s h
      have : s = [] := List.eq_nil_of_length_eq_zero (by omega)
      subst this
      rfl
  | succ m ih =>
      intro s h
      rw [normRuns_eq]
      by_cases hr : s.dropWhile (fun c => !isDig c) = []
      · rw [if_pos hr, takeWhile_eq_self_of_dropWhile_nil _ s hr]
      · rw [if_neg hr]
        have hsd : startsDig (s.dropWhile (fun c => !isDig c)) = true :=
          startsDig_dropWhile_not s hr
        have hne : restPart (s.dropWhile (fun c => !isDig c)) ≠
            s.dropWhile (fun c => !isDig c) := by
          intro he
          rw [← he, startsDig_restPart] at hsd
          exact absurd hsd (by decide)
        have hlt : (restPart (s.dropWhile (fun c => !isDig c))).length <
            (s.dropWhile (fun c => !isDig c)).length :=
          suffix_ne_length_lt (restPart_suffix _) hne
        have hle : (s.dropWhile (fun c => !isDig c)).length ≤ s.length :=
          (List.dropWhile_suffix _).length_le
        rw [List.append_assoc,
          skey_text_append _ _ (all_takeWhile_self _ s),
          skey_canon _ _ (allDig_dPart _) (dPart_head _)
            (startsDig_normRuns _ (startsDig_restPart _)),
          ih (restPart (s.dropWhile (fun c => !isDig c))) (by omega)]
        conv_rhs =>
          rw [← List.takeWhile_append_dropWhile (p := fun c => !isDig c) (l := s)]
        rw [skey_text_append _ _ (all_takeWhile_self _ s),
          skey_digit _ hsd]

theorem skey_normRuns (s : List Char) : skey (normRuns s) = skey s :=
  skey_normRuns_aux s.length s le_rfl

end Verstr

namespace Verstr

/-! ### The claims -/

/-- C1: for every pair of strings and each `total_order` flag value accepted
by both operations (`false` = default mode, `true` = deferred total order),
`compare` returns `LEFT` iff the first key is lexicographically greater than
the second, `RIGHT` iff it is smaller, and `EQUAL` iff the two keys are
identical strings. -/
theorem C1_key_comparator_agreement (a b : List Char) (t : Bool) :
    (compare a b (modeOfFlag t) = .LEFT ↔ lexLt (sortkey b t) (sortkey a t)) ∧
    (compare a b (modeOfFlag t) = .RIGHT ↔ lexLt (sortkey a t) (sortkey b t)) ∧
    (compare a b (modeOfFlag t) = .EQUAL ↔ sortkey a t = sortkey b t) := by
  rw [compare_flag_agree]
  refine ⟨?_, Iff.rfl, strCmp_eq_EQUAL_iff _ _⟩
  unfold lexLt
  rw [strCmp_swap (sortkey a t) (sortkey b t)]
  cases strCmp (sortkey a t) (sortkey b t) <;> decide

/-- C2: the integer encoder is strictly monotone from numeric value to
lexicographic order across digit lengths and signs; every valid input with
value zero (empty, all-zero, signed zero) encodes to the token `"00"`, which
sits strictly above every negative encoding and strictly below every
positive one. -/
theorem C2_encoder_numeric_order (x y : List Char)
    (hx : validInt x = true) (hy : validInt y = true) :
    (intVal x < intVal y → lexLt (sortableInteger x) (sortableInteger y)) ∧
    (intVal x = 0 → sortableInteger x = ['0', '0']) ∧
    (intVal x < 0 → lexLt (sortableInteger x) ['0', '0']) ∧
    (0 < intVal y → lexLt ['0', '0'] (sortableInteger y)) := by
  refine ⟨fun h => sortableInteger_lt x y hx hy h,
    fun h => sortableInteger_zero_token x hx h, fun h => ?_, fun h => ?_⟩
  · have hz : sortableInteger ['0'] = ['0', '0'] := by decide
    have := sortableInteger_lt x ['0'] hx (by decide)
      (by rw [show intVal ['0'] = 0 by decide]; exact h)
    rw [hz] at this
    exact this
  · have hz : sortableInteger ['0'] = ['0', '0'] := by decide
    have := sortableInteger_lt ['0'] y (by decide) hy
      (by rw [show intVal ['0'] = 0 by decide]; exact h)
    rw [hz] at this
    exact this

/-- C2 witness: `-42 < 7` gives lexicographically ordered encodings, and the
all-zero input `"000"` yields the zero token. -/
theorem C2_encoder_numeric_order_witness :
    lexLt (sortableInteger ['-', '4', '2']) (sortableInteger ['7']) ∧
    sortableInteger ['0', '0', '0'] = ['0', '0'] :=
  ⟨(C2_encoder_numeric_order ['-', '4', '2'] ['7'] (by decide) (by decide)).1
      (by decide),
    (C2_encoder_numeric_order ['0', '0', '0'] ['7'] (by decide) (by decide)).2.1
      (by decide)⟩

/-- C3: in every mode the comparator is total over the three results, is
inverted by swapping its operands, and is reflexive. -/
theorem C3_totality_inverse_reflexive (a b : List Char) (m : TotalOrderMode) :
    (compare a b m = .LEFT ∨ compare a b m = .EQUAL ∨ compare a b m = .RIGHT) ∧
    compare b a m = (compare a b m).inv ∧
    compare a a m = .EQUAL := by
  refine ⟨?_, compare_antisym a b m, compare_refl a m⟩
  cases h : compare a b m
  · exact Or.inl rfl
  · exact Or.inr (Or.inl rfl)
  · exact Or.inr (Or.inr rfl)

/-- C4: strings with identical per-run zero-stripped normalizations (equal
magnitudes, differing only in zero padding) are EQUAL in the default mode
and get identical default-mode keys; the deferred total-order mode
distinguishes them exactly as the total-order keys do. -/
theorem C4_zero_padding_equivalence (a b : List Char)
    (h : normRuns a = normRuns b) :
    compare a b .off = .EQUAL ∧ sortkey a false = sortkey b false ∧
    compare a b .deferred = strCmp (sortkey a true) (sortkey b true) := by
  have hk : skey a = skey b := by
    rw [← skey_normRuns a, ← skey_normRuns b, h]
  refine ⟨?_, ?_, compare_deferred_agree a b⟩
  · rw [compare_off_agree, hk]
    exact (strCmp_eq_EQUAL_iff _ _).2 rfl
  · rw [sortkey_false_eq, sortkey_false_eq, hk]

/-- C4 witness: `"2.007"` and `"2.7"` normalize identically, so the claim's
conclusions hold for them. -/
theorem C4_zero_padding_equivalence_witness :
    compare ['2', '.', '0', '0', '7'] ['2', '.', '7'] .off = .EQUAL ∧
    sortkey ['2', '.', '0', '0', '7'] false = sortkey ['2', '.', '7'] false ∧
    compare ['2', '.', '0', '0', '7'] ['2', '.', '7'] .deferred =
      strCmp (sortkey ['2', '.', '0', '0', '7'] true)
        (sortkey ['2', '.', '7'] true) :=
  C4_zero_padding_equivalence ['2', '.', '0', '0', '7'] ['2', '.', '7']
    (by decide)

end Verstr

namespace Verstr

/-- C5: in the elementwise total-order mode, a digit-run comparison that
finds numerically equal runs with unequal zero padding returns the run's
zero-padding signal immediately as the whole result (more padding zeros
sorts smaller, i.e. the signal is `sigOf` of the two zero counts); in
particular the documented chain
`"2.020.01" < "2.020.1" < "2.020.02" < "2.20.01" < "2.20.1"` holds
pairwise in that mode. -/
theorem C5_elementwise_immediate (l r : List Char) (hl : startsDig l = true)
    (hr : startsDig r = true) (hv : valBE (dPart l) = valBE (dPart r))
    (hz : (zPart l).length ≠ (zPart r).length) :
    compare l r .elementwise = sigOf (zPart l).length (zPart r).length ∧
    (compare ['2', '.', '0', '2', '0', '.', '0', '1']
        ['2', '.', '0', '2', '0', '.', '1'] .elementwise = .RIGHT ∧
      compare ['2', '.', '0', '2', '0', '.', '0', '1']
        ['2', '.', '0', '2', '0', '.', '0', '2'] .elementwise = .RIGHT ∧
      compare ['2', '.', '0', '2', '0', '.', '0', '1']
        ['2', '.', '2', '0', '.', '0', '1'] .elementwise = .RIGHT ∧
      compare ['2', '.', '0', '2', '0', '.', '0', '1']
        ['2', '.', '2', '0', '.', '1'] .elementwise = .RIGHT ∧
      compare ['2', '.', '0', '2', '0', '.', '1']
        ['2', '.', '0', '2', '0', '.', '0', '2'] .elementwise = .RIGHT ∧
      compare ['2', '.', '0', '2', '0', '.', '1']
        ['2', '.', '2', '0', '.', '0', '1'] .elementwise = .RIGHT ∧
      compare ['2', '.', '0', '2', '0', '.', '1']
        ['2', '.', '2', '0', '.', '1'] .elementwise = .RIGHT ∧
      compare ['2', '.', '0', '2', '0', '.', '0', '2']
        ['2', '.', '2', '0', '.', '0', '1'] .elementwise = .RIGHT ∧
      compare ['2', '.', '0', '2', '0', '.', '0', '2']
        ['2', '.', '2', '0', '.', '1'] .elementwise = .RIGHT ∧
      compare ['2', '.', '2', '0', '.', '0', '1']
        ['2', '.', '2', '0', '.', '1'] .elementwise = .RIGHT) := by
  constructor
  · obtain ⟨lc, ls, rfl⟩ : ∃ c cs, l = c :: cs := by
      cases l with
      | nil => exact absurd hl (by decide)
      | cons c cs => exact ⟨c, cs, rfl⟩
    obtain ⟨rc, rs, rfl⟩ : ∃ c cs, r = c :: cs := by
      cases r with
      | nil => exact absurd hr (by decide)
      | cons c cs => exact ⟨c, cs, rfl⟩
    have hld : isDig lc = true := hl
    have hrd : isDig rc = true := hr
    have hpos : isDig lc = true ∧ isDig rc = true := ⟨hld, hrd⟩
    have hsig : sigOf (zPart (lc :: ls)).length (zPart (rc :: rs)).length ≠
        .EQUAL := by
      unfold sigOf
      rcases Nat.lt_trichotomy (zPart (lc :: ls)).length
          (zPart (rc :: rs)).length with h | h | h
      · rw [if_neg (by omega), if_pos h]
        decide
      · exact absurd h hz
      · rw [if_pos h]
        decide
    have hc : sigOf (zPart (lc :: ls)).length (zPart (rc :: rs)).length ≠
        .EQUAL ∧ TotalOrderMode.elementwise = .elementwise := ⟨hsig, rfl⟩
    unfold compare
    rw [compareLoop_cons_cons, if_pos hpos, digitRunStep_eq_val _ _ hv]
    exact if_pos hc
  · decide

/-- C5 witness: the run `"01"` against `"1"`: equal magnitude, more padding
on the left, so the elementwise comparator immediately returns the
zero-padding signal. -/
theorem C5_elementwise_immediate_witness :
    compare ['0', '1'] ['1'] .elementwise =
      sigOf (zPart ['0', '1']).length (zPart ['1']).length :=
  (C5_elementwise_immediate ['0', '1'] ['1'] (by decide) (by decide)
    (by decide) (by decide)).1

/-- C6: the documented default-mode comparisons. -/
theorem C6_default_mode_examples :
    compare ['3'] ['2', '0'] .off = .RIGHT ∧
    compare ['2', '0'] ['1', '0', '0'] .off = .RIGHT ∧
    compare ['A', '3', 'D'] ['A', '2', '0', 'C'] .off = .RIGHT ∧
    compare ['2', '.', '0', '0', '7'] ['2', '.', '0', '1', '5', '.', '8']
      .off = .RIGHT ∧
    compare ['2', '.', '0', '1', '5', '.', '8']
      ['2', '.', '1', '5', '.', '0', '8'] .off = .EQUAL ∧
    compare ['2', '.', '2', '0', '.', '0'] ['2', '.', '0', '2', '0', '.', '1']
      .off = .RIGHT ∧
    compare ['2', '.', '0', '2', '0', '.', '1']
      ['2', '.', '2', '0', '.', '0', '2'] .off = .RIGHT := by
  decide

/-- C7 (corrected): the encoder is not injective on distinct same-sign valid
inputs — `"0"` and `"00"` both encode to `"00"` — but it is injective on
valid inputs denoting distinct numeric values, which is what makes decoding
of a canonically-written value well-defined. -/
theorem C7_encoder_value_injective (x y : List Char) (hx : validInt x = true)
    (hy : validInt y = true) (hne : intVal x ≠ intVal y) :
    sortableInteger x ≠ sortableInteger y :=
  sortableInteger_val_inj x y hx hy hne

/-- C7 counterexample to the claim as stated: `"0"` and `"00"` are distinct
syntactically valid non-negative inputs with identical encodings. -/
theorem C7_encoder_value_injective_counterexample :
    validInt ['0'] = true ∧ validInt ['0', '0'] = true ∧
    (['0'] : List Char) ≠ ['0', '0'] ∧
    sortableInteger ['0'] = sortableInteger ['0', '0'] := by
  decide

/-- C7 witness: inputs of distinct value get distinct encodings. -/
theorem C7_encoder_value_injective_witness :
    sortableInteger ['1'] ≠ sortableInteger ['2'] :=
  C7_encoder_value_injective ['1'] ['2'] (by decide) (by decide) (by decide)

/-- C8: after the common-zeros loop, the two remainders never both start
with `'0'`, so at most one of the two one-sided zero-consuming loops can
run and the checked variant of the digit-run step (whose `none` models the
`assert zeros != CompareResult.RIGHT` failing) never fails. -/
theorem C8_zero_loops_exclusive (l r : List Char) :
    ¬((dropBothZeros l r).1.head? = some '0' ∧
      (dropBothZeros l r).2.head? = some '0') ∧
    digitRunStepChk l r = some (digitRunStep l r) := by
  refine ⟨dropBothZeros_not_both l r, ?_⟩
  have hno : ¬((dropBothZeros l r).2.head? = some '0' ∧
      (dropBothZeros l r).1.head? = some '0') := fun h =>
    dropBothZeros_not_both l r ⟨h.2, h.1⟩
  show (if (dropBothZeros l r).2.head? = some '0' ∧
      (dropBothZeros l r).1.head? = some '0' then none
    else some (digitRunStep l r)) = some (digitRunStep l r)
  exact if_neg hno

/-- C9: the encoder's recursion variant: for an input of length at least 10
the recursive call receives the decimal representation of `length - 10`,
which is strictly shorter, and consequently the fuelled encoder is
independent of any sufficient fuel (the recursion terminates and the
encoder is a total function). -/
theorem C9_encoder_termination (s : List Char) (h : 10 ≤ s.length) :
    (natRepr (s.length - 10)).length < s.length ∧
    ∀ f, s.length < f → sortableIntegerCore f s = sortableIntegerAux s := by
  constructor
  · have := natRepr_length_le (s.length - 10)
    have h2 := natRepr_length_le_self (s.length - 10)
    omega
  · intro f hf
    exact sortableIntegerCore_irrel f (s.length + 1) s hf (by omega)

/-- C9 witness: a ten-character run of zeros. -/
theorem C9_encoder_termination_witness :
    (natRepr ((['0', '0', '0', '0', '0', '0', '0', '0', '0', '0'] :
      List Char).length - 10)).length <
    (['0', '0', '0', '0', '0', '0', '0', '0', '0', '0'] : List Char).length :=
  (C9_encoder_termination ['0', '0', '0', '0', '0', '0', '0', '0', '0', '0']
    (by decide)).1

/-- C10: the empty string is the unique minimum in every mode. -/
theorem C10_empty_minimum (m : TotalOrderMode) :
    compare [] [] m = .EQUAL ∧
    ∀ s : List Char, s ≠ [] →
      compare [] s m = .RIGHT ∧ compare s [] m = .LEFT := by
  constructor
  · cases m <;> rfl
  · intro s hs
    obtain ⟨c, t, rfl⟩ := List.exists_cons_of_ne_nil hs
    exact ⟨compareLoop_nil_cons _ m .EQUAL c t,
      compareLoop_cons_nil _ m .EQUAL c t⟩

/-- C10 witness: `""` against `"a"` in the default mode. -/
theorem C10_empty_minimum_witness :
    compare [] ['a'] .off = .RIGHT ∧ compare ['a'] [] .off = .LEFT :=
  (C10_empty_minimum .off).2 ['a'] (by decide)

end Verstr
